import Mathlib

/-!
# Verification of `rsc.c`

`rsc.c` offers four functions over the C library: `rsc_init` (seed the pseudo-random source
from the clock), `rsc_out` (print a number with two decimals), `rsc_input` (prompt until a
number is read) and `rsc_rand` (a scaled, rounded pseudo-random value).

The embedding is shallow:

* `int` values are integers; an `int` operation whose mathematical result does not fit the
  32-bit signed range, or whose divisor is zero, has no result (`none`);
* finite `double` values are rationals, and every `double` operation is the exact operation
  followed by the rounding `rnd` of a `DoubleModel`; `exactArith` rounds nothing (exact
  arithmetic) and `binary64` rounds to the nearest number with a 53-bit significand, ties to
  even; the theorems on rounded arithmetic hold for every rounding that is `Sound`, which
  both are;
* the pseudo-random source of the C library (`rand`, `srand`, `RAND_MAX`) is a parameter
  `Libc` with the guarantees of the C standard; `scanf("%lf")`, `getchar` and
  `printf("%.2f")` are those of the GNU C library, on character lists;
* the values `scanf` can store and `printf` can be given also include the negative zero, the
  infinities and NaN (`CDouble`);
* the process state a function reads or changes is passed explicitly (`World`).
-/

namespace Rsc

/-! ## `int` arithmetic -/

/-- Smallest value of a 32-bit `int`. -/
def INT_MIN : Int := -2147483648

/-- Largest value of a 32-bit `int`. -/
def INT_MAX : Int := 2147483647

/-- The `int` holding the mathematical value `x`, when it fits: signed overflow is undefined
behaviour in C and is `none` here. -/
def int_result (x : Int) : Option Int :=
  if INT_MIN ≤ x ∧ x ≤ INT_MAX then some x else none

/-- The C expression `x + y` on `int`. -/
def int_add (x y : Int) : Option Int := int_result (x + y)

/-- The C expression `x - y` on `int`. -/
def int_sub (x y : Int) : Option Int := int_result (x - y)

/-- The C expression `x % y` on `int`: the remainder of the division truncated towards zero;
undefined (`none`) for a zero divisor and when the quotient `x / y` overflows. -/
def int_mod (x y : Int) : Option Int :=
  if y = 0 then none
  else if x = INT_MIN ∧ y = -1 then none
  else some (Int.tmod x y)

/-! ## `double` arithmetic -/

/-- A model of the arithmetic of finite `double` values: `rnd x` is the representable number
that an operation delivers when its exact result is `x`. -/
structure DoubleModel where
  /-- Rounding of an exact result to the format. -/
  rnd : ℚ → ℚ

/-- Exact arithmetic: nothing is rounded. -/
def exactArith : DoubleModel := ⟨fun x => x⟩

/-- Rounding to the nearest integer, halfway cases to the even neighbour. -/
def round_half_even (x : ℚ) : Int :=
  let f : Int := ⌊x⌋
  let r : ℚ := x - (f : ℚ)
  if r < 1 / 2 then f
  else if 1 / 2 < r then f + 1
  else if f % 2 = 0 then f else f + 1

/-- The rounding of IEEE 754 binary64 in the default mode: to the nearest number with a
significand of 53 bits, halfway cases to the even significand. For `2 ^ e ≤ |x| < 2 ^ (e + 1)`
the representable numbers are the multiples of `2 ^ (e - 52)`. The exponent range is not
bounded: overflow and subnormal numbers, which `rsc_rand` is far from, are not modelled. -/
def fl64 (x : ℚ) : ℚ :=
  if x = 0 then 0
  else
    let e : Int := Int.log 2 |x|
    let u : ℚ := 2 ^ (e - 52)
    (round_half_even (x / u) : ℚ) * u

/-- The arithmetic of IEEE 754 binary64, the `double` of the usual C implementations. -/
def binary64 : DoubleModel := ⟨fl64⟩

/-- What the theorems use of a rounding: it keeps the order, commutes with negation, leaves
alone the numbers `n * 2 ^ k` whose significand `n` has at most 53 bits, and moves a number
by at most the fraction `2 ^ -53` of its magnitude. -/
structure DoubleModel.Sound (F : DoubleModel) : Prop where
  /-- Rounding is monotone. -/
  mono : ∀ x y : ℚ, x ≤ y → F.rnd x ≤ F.rnd y
  /-- Rounding is symmetric about zero. -/
  neg : ∀ x : ℚ, F.rnd (-x) = -F.rnd x
  /-- Numbers with a significand of at most 53 bits are representable. -/
  dyadic : ∀ n k : Int, |n| ≤ 2 ^ 53 → F.rnd ((n : ℚ) * 2 ^ k) = (n : ℚ) * 2 ^ k
  /-- The relative error of rounding is at most `2 ^ -53`. -/
  error : ∀ x : ℚ, |F.rnd x - x| ≤ |x| / 2 ^ 53

/-- Conversion of an `int` to `double`. -/
def to_double (F : DoubleModel) (n : Int) : ℚ := F.rnd (n : ℚ)

/-- The C expression `x * y` on `double`. -/
def double_mul (F : DoubleModel) (x y : ℚ) : ℚ := F.rnd (x * y)

/-- The C expression `x / y` on `double`; a zero divisor gives no finite value (`none`). -/
def double_div (F : DoubleModel) (x y : ℚ) : Option ℚ :=
  if y = 0 then none else some (F.rnd (x / y))

/-- The C library function `round`: the nearest integer, halfway cases away from zero. The
magnitude is cut to its integer part and one is added when the part cut off is at least a
half; the sign is put back. -/
def c_round (x : ℚ) : ℚ :=
  let t : Int := ⌊|x|⌋
  let n : Int := if 1 / 2 ≤ |x| - (t : ℚ) then t + 1 else t
  if x < 0 then -(n : ℚ) else (n : ℚ)

/-- A value of type `double` as the input and output functions see it: a finite number, the
negative zero, an infinity or a NaN, the last two with their sign. -/
inductive CDouble where
  /-- A finite number; `finite 0` is the positive zero. -/
  | finite (q : ℚ)
  /-- The zero with the sign bit set. -/
  | neg_zero
  /-- An infinity, negative when the flag is set. -/
  | infinite (negative : Bool)
  /-- A NaN, with the sign bit set when the flag is. -/
  | nan (negative : Bool)
  deriving DecidableEq

/-! ## `rsc_rand` -/

/-- The static `min` of `rsc.c`, `-0x10000`. -/
def min : Int := -65536

/-- The static `max` of `rsc.c`, `0x10000`. -/
def max : Int := 65536

/-- The divisor `2 + a % 11` that `rsc_rand` computes from the value `a` of its first call
of `rand()`. -/
def rsc_divisor (a : Int) : Option Int := do
  let m ← int_mod a 11
  int_add 2 m

/-- The base offset `min + b % (max - min + 1)` that `rsc_rand` computes from the value `b`
of its second call of `rand()`. -/
def rsc_base (b : Int) : Option Int := do
  let w ← int_sub max min
  let n ← int_add w 1
  let k ← int_mod b n
  int_add min k

/-- The `double` part of `rsc_rand` on the base offset `r` and the divisor `d`:
`double div = d; double val = r / div; return round(val * 100) / 100;`. -/
def rsc_value (F : DoubleModel) (r d : Int) : Option ℚ := do
  let div := to_double F d
  let val ← double_div F (to_double F r) div
  double_div F (c_round (double_mul F val (to_double F 100))) (to_double F 100)

/-- The body of `rsc_rand` on the values `a` and `b` that the first and the second call of
`rand()` returned:
`double div = 2 + a % 11; double val = (min + b % (max - min + 1)) / div;`
`return round(val * 100) / 100;`. -/
def rsc_rand_calc (F : DoubleModel) (a b : Int) : Option ℚ := do
  let d ← rsc_divisor a
  let r ← rsc_base b
  rsc_value F r d

/-- The number of raw outputs `a` of the pseudo-random source, among the `RAND_MAX + 1`
values `0 .. RAND_MAX`, from which `rsc_rand` computes the divisor `d`. -/
def divisor_count (RAND_MAX : Nat) (d : Int) : Nat :=
  (Finset.filter (fun a : Nat => rsc_divisor (a : Int) = some d)
    (Finset.range (RAND_MAX + 1))).card

/-! ## The C library's pseudo-random source and the process state -/

/-- The values of `n` successive calls of a `rand` function from the state `g`. -/
def rand_outputs {G : Type} (rand : G → Int × G) : Nat → G → List Int
  | 0, _ => []
  | n + 1, g => (rand g).1 :: rand_outputs rand n (rand g).2

/-- The part of the C library `rsc.c` relies on for pseudo-random numbers, with the
guarantees of the C standard: `rand` returns a value in `[0, RAND_MAX]`, `RAND_MAX` is at
least 32767 and is an `int`, and after `srand(seed)` the sequence of values of `rand` is the
one that belongs to `seed`, whatever came before. -/
structure Libc where
  /-- The largest value of `rand`. -/
  RAND_MAX : Int
  /-- The hidden state of the pseudo-random source. -/
  Rng : Type
  /-- The call `srand(seed)` on the state of the source. -/
  srand : Nat → Rng → Rng
  /-- The call `rand()`: the value returned and the next state. -/
  rand : Rng → Int × Rng
  /-- The constant `RAND_MAX` is at least 32767. -/
  RAND_MAX_ge : 32767 ≤ RAND_MAX
  /-- The constant `RAND_MAX` is a value of `int`. -/
  RAND_MAX_le : RAND_MAX ≤ INT_MAX
  /-- The value of `rand` is never negative. -/
  rand_nonneg : ∀ g, 0 ≤ (rand g).1
  /-- The value of `rand` is at most `RAND_MAX`. -/
  rand_le : ∀ g, (rand g).1 ≤ RAND_MAX
  /-- The sequence after `srand(seed)` is repeated for the same seed. -/
  srand_repeat : ∀ seed g g' n,
    rand_outputs rand n (srand seed g) = rand_outputs rand n (srand seed g')

/-- The sample implementation of `rand` and `srand` given in the C standard, on a 64-bit
`unsigned long`: `next = next * 1103515245 + 12345; return (next / 65536) % 32768;` and
`next = seed;`. -/
def Libc.sample : Libc where
  RAND_MAX := 32767
  Rng := Nat
  srand := fun seed _ => seed
  rand := fun next =>
    let next1 := (next * 1103515245 + 12345) % 18446744073709551616
    ((((next1 / 65536) % 4294967296) % 32768 : Nat), next1)
  RAND_MAX_ge := by decide
  RAND_MAX_le := by decide
  rand_nonneg := fun g => Int.ofNat_nonneg _
  rand_le := fun g => by
    show ((_ % 32768 : Nat) : Int) ≤ 32767
    have : (g * 1103515245 + 12345) % 18446744073709551616 / 65536 % 4294967296 % 32768 < 32768 :=
      Nat.mod_lt _ (by norm_num)
    omega
  srand_repeat := fun _ _ _ _ => rfl

/-- A linear congruential source with 31-bit outputs:
`state = (state * 1103515245 + 12345) & 0x7fffffff; return state;`, seeded by
`state = seed`. -/
def Libc.lcg31 : Libc where
  RAND_MAX := 2147483647
  Rng := Nat
  srand := fun seed _ => seed
  rand := fun state =>
    let state1 := (state * 1103515245 + 12345) % 2147483648
    ((state1 : Nat), state1)
  RAND_MAX_ge := by decide
  RAND_MAX_le := by decide
  rand_nonneg := fun g => Int.ofNat_nonneg _
  rand_le := fun g => by
    show ((_ % 2147483648 : Nat) : Int) ≤ 2147483647
    have : (g * 1103515245 + 12345) % 2147483648 < 2147483648 := Nat.mod_lt _ (by norm_num)
    omega
  srand_repeat := fun _ _ _ _ => rfl

/-- The process state the functions of `rsc.c` read and change: the state of the
pseudo-random source, the characters not yet read from standard input and the characters
written to standard output. -/
structure World (L : Libc) where
  /-- State of the pseudo-random source. -/
  rng : L.Rng
  /-- Unread characters of standard input. -/
  stdin : List Char
  /-- Characters written to standard output, oldest first. -/
  stdout : List Char

/-! ## `printf` and `rsc_out` -/

/-- The character of a decimal digit `n < 10`. -/
def digit_char (n : Nat) : Char := Char.ofNat (48 + n)

/-- The decimal digit a digit character stands for. -/
def digit_value (c : Char) : Nat := c.toNat - 48

/-- The decimal digits of `n` put before `acc`; `fuel` bounds the number of digits. -/
def decimal_digits_aux : Nat → Nat → List Char → List Char
  | 0, _, acc => acc
  | fuel + 1, n, acc =>
    if n < 10 then digit_char n :: acc
    else decimal_digits_aux fuel (n / 10) (digit_char (n % 10) :: acc)

/-- The decimal numeral of `n`, without leading zeros; `0` is `"0"`. -/
def decimal_digits (n : Nat) : List Char := decimal_digits_aux (n + 1) n []

/-- The number a decimal numeral stands for. -/
def decimal_value (cs : List Char) : Nat := cs.foldl (fun v c => 10 * v + digit_value c) 0

/-- The conversion `%.2f` of `printf`: an optional minus sign, the integer part, a point
and exactly two digits, for the value rounded to the nearest hundredth (halfway cases to
the even hundredth, the rounding of IEEE 754 conversions); infinities and NaN print as
`inf`, `-inf`, `nan` and `-nan`. -/
def fmt_2f : CDouble → List Char
  | CDouble.finite q =>
    let n : Nat := (round_half_even (|q| * 100)).toNat
    (if q < 0 then ['-'] else []) ++ decimal_digits (n / 100) ++
      ['.', digit_char (n / 10 % 10), digit_char (n % 10)]
  | CDouble.neg_zero => "-0.00".toList
  | CDouble.infinite negative => (if negative then ['-'] else []) ++ "inf".toList
  | CDouble.nan negative => (if negative then ['-'] else []) ++ "nan".toList

/-- The function `rsc_out`: `printf("%.2f\n", number)`. -/
def rsc_out (L : Libc) (number : CDouble) (w : World L) : World L :=
  { w with stdout := w.stdout ++ (fmt_2f number ++ ['\n']) }

/-! ## `scanf`, `getchar` and `rsc_input`

`scanf("%lf")` is the one of the GNU C library (glibc 2.36), the library `rsc.c` is linked
with: its floating-point conversion reads characters one at a time into a buffer and then
hands the buffer to `strtod`. It differs from the wording of the C standard in three ways
that the definitions below keep: when the letters of `nan`, `inf` or `infinity` break off,
the character at which they break off is taken from the input and not put back; an exponent
letter with no digit after it (`1e`, `1e+`, `0x1p`) is taken and the number before it is
stored; and `nan` is never followed by a parenthesised sequence. -/

/-- The C function `isspace` in the C locale: space, `\t`, `\n`, `\v`, `\f` and `\r`. -/
def isspace (c : Char) : Bool :=
  c = ' ' || c = '\t' || c = '\n' || c = '\x0b' || c = '\x0c' || c = '\r'

/-- The value of a hexadecimal digit, `none` for another character. -/
def hex_value (c : Char) : Option Nat :=
  if c.isDigit then some (c.toNat - 48)
  else if 'a' ≤ c ∧ c ≤ 'f' then some (c.toNat - 87)
  else if 'A' ≤ c ∧ c ≤ 'F' then some (c.toNat - 55)
  else none

/-- The power `2 ^ e` of an integer exponent, computed on natural numbers. -/
def two_pow (e : Int) : ℚ :=
  if 0 ≤ e then ((2 ^ e.toNat : Nat) : ℚ) else 1 / ((2 ^ (-e).toNat : Nat) : ℚ)

/-- The binade of a non-zero number: the `e` with `2 ^ e ≤ |q| < 2 ^ (e + 1)`, found from the
bit lengths of the numerator and the denominator. -/
def binade (q : ℚ) : Int :=
  let a : Int := (q.num.natAbs.log2 : Int) - (q.den.log2 : Int)
  if two_pow a ≤ |q| then a else a - 1

/-- The `double` that `strtod` returns for the decimal or hexadecimal number of magnitude
`q ≥ 0` and sign `neg`: the nearest binary64 number, halfway cases to the even significand;
below `2 ^ -1022` the numbers are the multiples of `2 ^ -1074` (subnormal numbers, and zero
on underflow); a result of `2 ^ 1024` or more is an infinity; a zero keeps the sign. -/
def strtod_round (neg : Bool) (q : ℚ) : CDouble :=
  if q = 0 then (if neg then CDouble.neg_zero else CDouble.finite 0)
  else
    let e : Int := if binade q < -1022 then -1022 else binade q
    let u : ℚ := two_pow (e - 52)
    let v : ℚ := (round_half_even (q / u) : ℚ) * u
    if two_pow 1024 ≤ v then CDouble.infinite neg
    else if v = 0 then (if neg then CDouble.neg_zero else CDouble.finite 0)
    else CDouble.finite (if neg then -v else v)

/-- Where the conversion stands in its code: before the first character, after a sign,
after a leading `0` (which may begin `0x`), in the loop that reads a number, or among the
letters of `nan`, `inf` and `infinity`. -/
inductive Phase where
  /-- Nothing read. -/
  | start
  /-- A sign read. -/
  | sign
  /-- A leading `0` read. -/
  | zero
  /-- The loop over the characters of a number. -/
  | num
  /-- The letter `n`. -/
  | n1
  /-- The letters `na`. -/
  | n2
  /-- The letters `nan`. -/
  | nan_done
  /-- The letter `i`. -/
  | i1
  /-- The letters `in`. -/
  | i2
  /-- The letters `inf`; the next character decides between `inf` and `infinity`. -/
  | inf3
  /-- The letters `infi`. -/
  | i4
  /-- The letters `infin`. -/
  | i5
  /-- The letters `infini`. -/
  | i6
  /-- The letters `infinit`. -/
  | i7
  /-- The letters `infinity`. -/
  | inf_done
  deriving DecidableEq

/-- The state of the conversion: the phase, the flags of the library's loop and the number
that the characters in its buffer spell. -/
structure Scan where
  /-- Place in the code of the conversion. -/
  phase : Phase
  /-- A minus sign was read. -/
  neg : Bool
  /-- The prefix `0x` was read: the number is hexadecimal and its exponent letter is `p`. -/
  hexa : Bool
  /-- The flag `got_digit`: a digit was read. -/
  got_digit : Bool
  /-- The flag `got_dot`: a point or an exponent letter was read. -/
  got_dot : Bool
  /-- The flag `got_e`: an exponent letter was read. -/
  got_e : Bool
  /-- The last character put in the buffer is the exponent letter. -/
  last_exp : Bool
  /-- The digits of the significand read so far, as one integer. -/
  mant : Nat
  /-- The number of digits of the significand read after the point. -/
  scale : Nat
  /-- The exponent has a minus sign. -/
  eneg : Bool
  /-- The digits of the exponent, as one integer. -/
  exp : Nat
  /-- The exponent has a digit. -/
  exp_digit : Bool
  deriving DecidableEq

/-- The state before any character is read. -/
def Scan.init : Scan :=
  ⟨Phase.start, false, false, false, false, false, false, 0, 0, false, 0, false⟩

/-- What the conversion does with the character it has just read. -/
inductive Act where
  /-- The character is kept and the reading goes on. -/
  | more (s : Scan)
  /-- The character is put back (`ungetc`) and the reading ends. -/
  | unread
  /-- The character is taken and the conversion fails (`conv_error`). -/
  | taken_err
  /-- The character is kept and the reading ends with it. -/
  | taken_done (s : Scan)
  deriving DecidableEq

/-- A digit of value `d` is put in the buffer: in the exponent once the exponent letter was
read, else in the significand, after the point once a point was read. -/
def add_digit (s : Scan) (d : Nat) : Scan :=
  if s.got_e then
    { s with got_digit := true, last_exp := false, exp := 10 * s.exp + d, exp_digit := true }
  else if s.got_dot then
    { s with got_digit := true, mant := (if s.hexa then 16 else 10) * s.mant + d,
             scale := s.scale + 1 }
  else
    { s with got_digit := true, mant := (if s.hexa then 16 else 10) * s.mant + d }

/-- One round of the loop that reads a number: a digit; a hexadecimal digit of a hexadecimal
significand; a sign right after the exponent letter; the exponent letter after a digit; a
first point; any other character is put back and ends the loop. -/
def num_step (s : Scan) (c : Char) : Act :=
  if c.isDigit then Act.more (add_digit s (digit_value c))
  else if !s.got_e && s.hexa && (hex_value c).isSome then
    Act.more (add_digit s ((hex_value c).getD 0))
  else if s.got_e && s.last_exp && (c = '-' || c = '+') then
    Act.more { s with last_exp := false, eneg := c = '-' }
  else if s.got_digit && !s.got_e && c.toLower = (if s.hexa then 'p' else 'e') then
    Act.more { s with got_e := true, got_dot := true, last_exp := true }
  else if !s.got_dot && c = '.' then Act.more { s with got_dot := true }
  else Act.unread

/-- The first character after the optional sign: `n` and `i` begin the words `nan` and
`inf`, a `0` may begin `0x`, any other character enters the loop that reads a number. -/
def first_step (s : Scan) (c : Char) : Act :=
  if c.toLower = 'n' then Act.more { s with phase := Phase.n1 }
  else if c.toLower = 'i' then Act.more { s with phase := Phase.i1 }
  else if c = '0' then Act.more { s with phase := Phase.zero }
  else num_step { s with phase := Phase.num } c

/-- Inside a word the next letter is required: another character is taken from the input
and the conversion fails. -/
def expect (s : Scan) (c letter : Char) (next : Phase) : Act :=
  if c.toLower = letter then Act.more { s with phase := next } else Act.taken_err

/-- What the conversion does with the next character `c` in the state `s`. -/
def step (s : Scan) (c : Char) : Act :=
  match s.phase with
  | Phase.start =>
    if c = '-' || c = '+' then Act.more { s with phase := Phase.sign, neg := c = '-' }
    else first_step s c
  | Phase.sign => first_step s c
  | Phase.zero =>
    if c.toLower = 'x' then Act.more { s with phase := Phase.num, hexa := true }
    else num_step { s with phase := Phase.num, got_digit := true } c
  | Phase.num => num_step s c
  | Phase.n1 => expect s c 'a' Phase.n2
  | Phase.n2 =>
    if c.toLower = 'n' then Act.taken_done { s with phase := Phase.nan_done }
    else Act.taken_err
  | Phase.nan_done => Act.unread
  | Phase.i1 => expect s c 'n' Phase.i2
  | Phase.i2 => expect s c 'f' Phase.inf3
  | Phase.inf3 => if c.toLower = 'i' then Act.more { s with phase := Phase.i4 } else Act.unread
  | Phase.i4 => expect s c 'n' Phase.i5
  | Phase.i5 => expect s c 'i' Phase.i6
  | Phase.i6 => expect s c 't' Phase.i7
  | Phase.i7 =>
    if c.toLower = 'y' then Act.taken_done { s with phase := Phase.inf_done }
    else Act.taken_err
  | Phase.inf_done => Act.unread

/-- The end of the input during the conversion: a number read so far and the word `inf` go
on to be converted; after a sign alone and inside a word the conversion fails. -/
def at_eof (s : Scan) : Option Scan :=
  match s.phase with
  | Phase.zero | Phase.num | Phase.inf3 | Phase.nan_done | Phase.inf_done => some s
  | _ => none

/-- The reading of the characters of the conversion: the state in which the reading ended
(`none` when the conversion failed while reading) and the input left unread. -/
def scan_item : Scan → List Char → Option Scan × List Char
  | s, [] => (at_eof s, [])
  | s, c :: cs =>
    match step s c with
    | Act.more s1 => scan_item s1 cs
    | Act.unread => (some s, c :: cs)
    | Act.taken_err => (none, cs)
    | Act.taken_done s1 => (some s1, cs)

/-- The magnitude that `strtod` reads in the buffer: the significand, scaled by the exponent
when the exponent has a digit (an exponent letter without digits is ignored). -/
def scan_magnitude (s : Scan) : ℚ :=
  let m : ℚ := (s.mant : ℚ) / (((if s.hexa then 16 else 10) ^ s.scale : Nat) : ℚ)
  let p : ℚ := (((if s.hexa then 2 else 10) ^ s.exp : Nat) : ℚ)
  if s.exp_digit then (if s.eneg then m / p else m * p) else m

/-- The value `strtod` makes of the buffer, `none` when the conversion fails: the buffer
holds no digit (it is empty, a sign, a point, or `0x` alone; of `0x.` the leading zero is
converted). -/
def scan_value (s : Scan) : Option CDouble :=
  match s.phase with
  | Phase.nan_done => some (CDouble.nan s.neg)
  | Phase.inf3 | Phase.inf_done => some (CDouble.infinite s.neg)
  | Phase.zero => some (strtod_round s.neg 0)
  | Phase.num =>
    if s.got_digit then some (strtod_round s.neg (scan_magnitude s))
    else if s.hexa && s.got_dot then some (strtod_round s.neg 0)
    else none
  | _ => none

/-- What a call of `scanf` leaves: its return value, the value it stored (if any) and the
unread input. -/
structure ScanResult where
  /-- The return value of `scanf`: the number of items stored, or `EOF = -1`. -/
  ret : Int
  /-- The value stored through the argument, if one was. -/
  val : Option CDouble
  /-- The input that remains unread. -/
  rest : List Char
  deriving DecidableEq

/-- The call `scanf("%lf", &val)` on the unread input: white space is skipped; at the end of
the input the call fails with `EOF`; otherwise the characters of the conversion are read,
and a value is stored (return value 1) or the conversion fails (return value 0). -/
def scanf_lf (input : List Char) : ScanResult :=
  match input.dropWhile isspace with
  | [] => ⟨-1, none, []⟩
  | c :: cs =>
    let r := scan_item Scan.init (c :: cs)
    match r.1.bind scan_value with
    | some v => ⟨1, some v, r.2⟩
    | none => ⟨0, none, r.2⟩

/-- The loop `while (getchar() != '\n');`: the input after the first line break; `none`
when there is no line break, where the loop never ends because `getchar` keeps returning
`EOF`. -/
def discard_line : List Char → Option (List Char)
  | [] => none
  | c :: cs => if c = '\n' then some cs else discard_line cs

/-- The loop of `rsc_input`, for at most `fuel` rounds, with the current value of the
variable `val`: prompt, call `scanf`; unless it returned 1, print the diagnostic, discard
the input up to the next line break and go round again; when it returned 1, return `val`.
The result is `none` when the loop does not return within `fuel` rounds or never leaves the
inner loop. -/
def rsc_input_loop (L : Libc) : Nat → CDouble → World L → Option (CDouble × World L)
  | 0, _, _ => none
  | fuel + 1, val, w =>
    let w1 : World L := { w with stdout := w.stdout ++ "Input: ".toList }
    let r := scanf_lf w1.stdin
    let val1 := r.val.getD val
    let w2 : World L := { w1 with stdin := r.rest }
    if r.ret ≠ 1 then
      let w3 : World L :=
        { w2 with stdout := w2.stdout ++ "Invalid entry, try again.\n".toList }
      match discard_line w3.stdin with
      | none => none
      | some rest => rsc_input_loop L fuel val1 { w3 with stdin := rest }
    else some (val1, w2)

/-- The function `rsc_input`: the loop started with `val = 0`; every round but the last takes
at least one character from the input, so one round more than the input has characters is
enough for the loop to return if it ever does. -/
def rsc_input (L : Libc) (w : World L) : Option (CDouble × World L) :=
  rsc_input_loop L (w.stdin.length + 1) (CDouble.finite 0) w

/-- The line `l` (without its line break) is one on which `scanf("%lf")` stores nothing and
leaves the line break unread. -/
def invalid_line (l : List Char) : Prop :=
  '\n' ∉ l ∧ (scanf_lf (l ++ ['\n'])).ret = 0 ∧ (scanf_lf (l ++ ['\n'])).rest ≠ []

/-- The line `l` (without its line break) begins with a number that `scanf("%lf")` stores
as `x`, after which `tail` remains of the line. -/
def valid_line (l : List Char) (x : CDouble) (tail : List Char) : Prop :=
  '\n' ∉ l ∧ scanf_lf (l ++ ['\n']) = ⟨1, some x, tail ++ ['\n']⟩

/-- The text of the lines `ls`, each followed by its line break. -/
def lines_text : List (List Char) → List Char
  | [] => []
  | l :: ls => l ++ '\n' :: lines_text ls

/-! ## `rsc_init` and `rsc_rand` on the process state -/

/-- The function `rsc_init`: `srand(time(NULL))`, where `t` is the value `time(NULL)` returns; the
conversion to the `unsigned int` parameter of `srand` reduces it modulo `2 ^ 32`. -/
def rsc_init (L : Libc) (t : Int) (w : World L) : World L :=
  { w with rng := L.srand (t % 4294967296).toNat w.rng }

/-- The function `rsc_rand`: the first call of `rand()` gives the divisor, the second the base
offset;
the result is the value returned and the state after the call. -/
def rsc_rand (L : Libc) (F : DoubleModel) (w : World L) : Option (ℚ × World L) :=
  let a := L.rand w.rng
  let b := L.rand a.2
  (rsc_rand_calc F a.1 b.1).map fun v => (v, { w with rng := b.2 })

/-- The values returned by `n` successive calls of `rsc_rand`, oldest first, and the state
after them. -/
def rsc_rand_calls (L : Libc) (F : DoubleModel) : Nat → World L → Option (List ℚ × World L)
  | 0, w => some ([], w)
  | n + 1, w => do
    let r ← rsc_rand L F w
    let rs ← rsc_rand_calls L F n r.2
    pure (r.1 :: rs.1, rs.2)

/-- The values `rsc_rand` computes from a list of successive outputs of `rand()`, two
outputs for each value. -/
def values_of (F : DoubleModel) : List Int → List ℚ
  | a :: b :: rest => (rsc_rand_calc F a b).getD 0 :: values_of F rest
  | _ => []

/-! ## The reference definition of the specification -/

/-- Rounding to the nearest integer with ties away from zero, as the specification words it:
a half is added to a non-negative number, which is then rounded down; a half is taken from
a negative number, which is then rounded up. -/
def round_half_away (x : ℚ) : Int :=
  if 0 ≤ x then ⌊x + 1 / 2⌋ else ⌈x - 1 / 2⌉

/-- The value the specification's algorithm gives for the first output `a` and the second
output `b` of the pseudo-random source: with `d = 2 + (a mod 11)` and
`r = -65536 + (b mod 131073)`, the real quotient `r / d` rounded to two decimals,
`round(100 * r / d) / 100`. -/
def rsc_rand_spec (a b : Int) : ℚ :=
  let d : Int := 2 + a % 11
  let r : Int := -65536 + b % 131073
  (round_half_away (100 * ((r : ℚ) / (d : ℚ))) : ℚ) / 100

/-! ## Theorems

### `int` arithmetic -/

theorem int_result_of_mem {x : Int} (h1 : INT_MIN ≤ x) (h2 : x ≤ INT_MAX) :
    int_result x = some x := by
  simp [int_result, h1, h2]

theorem int_mod_of_nonneg {x y : Int} (hx : 0 ≤ x) (hy : 0 < y) :
    int_mod x y = some (x % y) := by
  have h0 : y ≠ 0 := by omega
  have h1 : ¬ (x = INT_MIN ∧ y = -1) := by
    intro h; omega
  simp [int_mod, h0, h1]
  exact Int.tmod_eq_emod hx (le_of_lt hy)

theorem rsc_divisor_eq {a : Int} (ha : 0 ≤ a) : rsc_divisor a = some (2 + a % 11) := by
  have hm : int_mod a 11 = some (a % 11) := int_mod_of_nonneg ha (by norm_num)
  have ha1 : 0 ≤ a % 11 := Int.emod_nonneg _ (by norm_num)
  have ha2 : a % 11 < 11 := Int.emod_lt_of_pos _ (by norm_num)
  have hs : int_add 2 (a % 11) = some (2 + a % 11) :=
    int_result_of_mem (by simp only [INT_MIN]; omega) (by simp only [INT_MAX]; omega)
  simp only [rsc_divisor, hm, hs, Option.bind_eq_bind, Option.some_bind]

theorem rsc_base_eq {b : Int} (hb : 0 ≤ b) : rsc_base b = some (-65536 + b % 131073) := by
  have hw : int_sub max min = some 131072 := by decide
  have hn : int_add 131072 1 = some 131073 := by decide
  have hk : int_mod b 131073 = some (b % 131073) := int_mod_of_nonneg hb (by norm_num)
  have hb1 : 0 ≤ b % 131073 := Int.emod_nonneg _ (by norm_num)
  have hb2 : b % 131073 < 131073 := Int.emod_lt_of_pos _ (by norm_num)
  have hr : int_add min (b % 131073) = some (-65536 + b % 131073) := by
    show int_result (-65536 + b % 131073) = _
    exact int_result_of_mem (by simp only [INT_MIN]; omega) (by simp only [INT_MAX]; omega)
  simp only [rsc_base, hw, hn, hk, hr, Option.bind_eq_bind, Option.some_bind]

theorem base_abs_le (b : Int) : |(-65536 + b % 131073 : Int)| ≤ 65536 := by
  have hb1 : 0 ≤ b % 131073 := Int.emod_nonneg _ (by norm_num)
  have hb2 : b % 131073 < 131073 := Int.emod_lt_of_pos _ (by norm_num)
  rw [abs_le]
  constructor <;> omega

theorem divisor_ge_two (a : Int) : 2 ≤ 2 + a % 11 := by
  have ha1 : 0 ≤ a % 11 := Int.emod_nonneg _ (by norm_num)
  omega

/-! ### The function `round` -/

/-- The integer `round` gives for the magnitude `y`. -/
theorem c_round_mag_cases (y : ℚ) :
    ((if 1 / 2 ≤ y - ((⌊y⌋ : Int) : ℚ) then ⌊y⌋ + 1 else ⌊y⌋ : Int) : ℚ) - y ≤ 1 / 2 ∧
    y - ((if 1 / 2 ≤ y - ((⌊y⌋ : Int) : ℚ) then ⌊y⌋ + 1 else ⌊y⌋ : Int) : ℚ) < 1 / 2 := by
  have h1 : ((⌊y⌋ : Int) : ℚ) ≤ y := Int.floor_le y
  have h2 : y < ((⌊y⌋ : Int) : ℚ) + 1 := Int.lt_floor_add_one y
  split_ifs with h
  · push_cast
    constructor <;> linarith
  · push_neg at h
    constructor <;> linarith

theorem c_round_of_nonneg {x : ℚ} (hx : 0 ≤ x) :
    c_round x = ((if 1 / 2 ≤ x - ((⌊x⌋ : Int) : ℚ) then ⌊x⌋ + 1 else ⌊x⌋ : Int) : ℚ) := by
  simp only [c_round, abs_of_nonneg hx, if_neg (not_lt.mpr hx)]

theorem c_round_neg (x : ℚ) : c_round (-x) = -c_round x := by
  rcases lt_trichotomy x 0 with h | h | h
  · have h1 : ¬ (-x < 0) := by linarith
    simp only [c_round, abs_neg, if_neg h1, if_pos h, neg_neg]
  · subst h
    norm_num [c_round]
  · have h1 : -x < 0 := by linarith
    have h2 : ¬ (x < 0) := by linarith
    simp only [c_round, abs_neg, if_pos h1, if_neg h2]

/-- On a non-negative argument `round` is at most a half above and less than a half below. -/
theorem c_round_near_of_nonneg {x : ℚ} (hx : 0 ≤ x) :
    c_round x - x ≤ 1 / 2 ∧ x - c_round x < 1 / 2 := by
  rw [c_round_of_nonneg hx]
  exact c_round_mag_cases x

theorem c_round_nonneg {x : ℚ} (hx : 0 ≤ x) : 0 ≤ c_round x := by
  rw [c_round_of_nonneg hx]
  have h0 : (0 : Int) ≤ ⌊x⌋ := Int.floor_nonneg.mpr hx
  split_ifs <;> exact_mod_cast (by omega : (0 : Int) ≤ _)

/-- The result of `round` is an integer. -/
theorem c_round_int (x : ℚ) : ∃ n : Int, c_round x = (n : ℚ) := by
  rcases le_or_lt 0 x with h | h
  · exact ⟨_, c_round_of_nonneg h⟩
  · have h1 : 0 ≤ -x := by linarith
    refine ⟨-(if 1 / 2 ≤ -x - ((⌊-x⌋ : Int) : ℚ) then ⌊-x⌋ + 1 else ⌊-x⌋ : Int), ?_⟩
    have := c_round_neg (-x)
    rw [neg_neg] at this
    rw [this, c_round_of_nonneg h1]
    push_cast
    rfl

/-- The value of `round` is no larger in magnitude than an integer bound of its argument. -/
theorem c_round_le_of_le {x : ℚ} {M : Int} (hx : 0 ≤ x) (h : x ≤ (M : ℚ)) :
    c_round x ≤ (M : ℚ) := by
  rw [c_round_of_nonneg hx]
  have h1 : ⌊x⌋ ≤ M := Int.floor_le_iff.mpr (by linarith)
  have h2 : ((⌊x⌋ : Int) : ℚ) ≤ x := Int.floor_le x
  split_ifs with hc
  · have h3 : ((⌊x⌋ : Int) : ℚ) < (M : ℚ) := by linarith
    have h4 : ⌊x⌋ < M := by exact_mod_cast h3
    exact_mod_cast (by omega : ⌊x⌋ + 1 ≤ M)
  · exact_mod_cast h1

theorem c_round_abs_le {x : ℚ} {M : Int} (h : |x| ≤ (M : ℚ)) : |c_round x| ≤ (M : ℚ) := by
  rcases le_or_lt 0 x with hx | hx
  · rw [abs_of_nonneg (c_round_nonneg hx)]
    rw [abs_of_nonneg hx] at h
    exact c_round_le_of_le hx h
  · have h1 : 0 ≤ -x := by linarith
    rw [abs_of_neg hx] at h
    have h2 := c_round_le_of_le h1 h
    have h3 := c_round_nonneg h1
    rw [c_round_neg] at h2 h3
    rw [abs_of_nonpos (by linarith)]
    exact h2

/-- The specification's rounding is a nearest integer, and on a tie the one of larger
magnitude. -/
theorem round_half_away_nearest (x : ℚ) :
    |(round_half_away x : ℚ) - x| ≤ 1 / 2 ∧
      (|(round_half_away x : ℚ) - x| = 1 / 2 → |x| < |(round_half_away x : ℚ)|) := by
  unfold round_half_away
  split_ifs with h
  · have h1 : ((⌊x + 1 / 2⌋ : Int) : ℚ) ≤ x + 1 / 2 := Int.floor_le _
    have h2 : x + 1 / 2 < ((⌊x + 1 / 2⌋ : Int) : ℚ) + 1 := Int.lt_floor_add_one _
    refine ⟨abs_le.mpr ⟨by linarith, by linarith⟩, fun he => ?_⟩
    have h3 : ((⌊x + 1 / 2⌋ : Int) : ℚ) - x = 1 / 2 := by
      rcases abs_eq (by norm_num : (0 : ℚ) ≤ 1 / 2) |>.mp he with h4 | h4
      · exact h4
      · linarith
    rw [abs_of_nonneg h, abs_of_nonneg (by linarith)]
    linarith
  · push_neg at h
    have h1 : x - 1 / 2 ≤ ((⌈x - 1 / 2⌉ : Int) : ℚ) := Int.le_ceil _
    have h2 : ((⌈x - 1 / 2⌉ : Int) : ℚ) < x - 1 / 2 + 1 := Int.ceil_lt_add_one _
    refine ⟨abs_le.mpr ⟨by linarith, by linarith⟩, fun he => ?_⟩
    have h3 : ((⌈x - 1 / 2⌉ : Int) : ℚ) - x = -(1 / 2) := by
      rcases abs_eq (by norm_num : (0 : ℚ) ≤ 1 / 2) |>.mp he with h4 | h4
      · linarith
      · exact h4
    rw [abs_of_neg h, abs_of_neg (by linarith)]
    linarith

/-- The specification's rounding is the only integer that is nearest, and of larger
magnitude on a tie. -/
theorem round_half_away_unique (x : ℚ) (N : Int) (h1 : |(N : ℚ) - x| ≤ 1 / 2)
    (h2 : |(N : ℚ) - x| = 1 / 2 → |x| < |(N : ℚ)|) : N = round_half_away x := by
  obtain ⟨m1, m2⟩ := round_half_away_nearest x
  generalize round_half_away x = M at m1 m2
  rw [abs_le] at h1 m1
  have hNM : (N : ℚ) - (M : ℚ) ≤ 1 := by linarith [h1.2, m1.1]
  have hMN : (M : ℚ) - (N : ℚ) ≤ 1 := by linarith [h1.1, m1.2]
  have hNM1 : N - M ≤ 1 := by exact_mod_cast hNM
  have hMN1 : M - N ≤ 1 := by exact_mod_cast hMN
  rcases (by omega : N = M ∨ N = M + 1 ∨ M = N + 1) with h | h | h
  · exact h
  · -- `x` is halfway between `M` and `M + 1`: both would have to be larger in magnitude
    exfalso
    have hx : x = (M : ℚ) + 1 / 2 := by
      rw [h] at h1
      push_cast at h1
      linarith [h1.2, m1.1]
    have t1 : |(N : ℚ) - x| = 1 / 2 := by
      rw [h, hx]
      push_cast
      norm_num
    have t2 : |(M : ℚ) - x| = 1 / 2 := by
      rw [hx]
      norm_num
    have a1 := h2 t1
    have a2 := m2 t2
    rw [h] at a1
    push_cast at a1
    rcases le_or_lt 0 M with hM | hM
    · have hM1 : (0 : ℚ) ≤ (M : ℚ) := by exact_mod_cast hM
      rw [hx, abs_of_nonneg (by linarith), abs_of_nonneg hM1] at a2
      linarith
    · have hM1 : (M : ℚ) + 1 ≤ 0 := by exact_mod_cast (by omega : M + 1 ≤ 0)
      rw [hx, abs_of_nonpos (by linarith), abs_of_nonpos hM1] at a1
      linarith
  · exfalso
    have hx : x = (N : ℚ) + 1 / 2 := by
      rw [h] at m1
      push_cast at m1
      linarith [h1.1, m1.2]
    have t1 : |(N : ℚ) - x| = 1 / 2 := by
      rw [hx]
      norm_num
    have t2 : |(M : ℚ) - x| = 1 / 2 := by
      rw [h, hx]
      push_cast
      norm_num
    have a1 := h2 t1
    have a2 := m2 t2
    rw [h] at a2
    push_cast at a2
    rcases le_or_lt 0 N with hN | hN
    · have hN1 : (0 : ℚ) ≤ (N : ℚ) := by exact_mod_cast hN
      rw [hx, abs_of_nonneg (by linarith), abs_of_nonneg hN1] at a1
      linarith
    · have hN1 : (N : ℚ) + 1 ≤ 0 := by exact_mod_cast (by omega : N + 1 ≤ 0)
      rw [hx, abs_of_nonpos (by linarith), abs_of_nonpos hN1] at a2
      linarith

theorem round_half_away_unique_witness :
    |((13 : Int) : ℚ) - 25 / 2| ≤ 1 / 2 ∧ (13 : Int) = round_half_away (25 / 2) :=
  have h : |((13 : Int) : ℚ) - 25 / 2| = 1 / 2 := by norm_num [abs_of_pos]
  ⟨le_of_eq h, round_half_away_unique (25 / 2) 13 (le_of_eq h)
    (fun _ => by norm_num [abs_of_pos])⟩

/-- The C function `round` is the specification's rounding. -/
theorem c_round_eq_round_half_away (x : ℚ) : c_round x = (round_half_away x : ℚ) := by
  rcases le_or_lt 0 x with h | h
  · rw [c_round_of_nonneg h]
    simp only [round_half_away, if_pos h]
    have h1 : ((⌊x⌋ : Int) : ℚ) ≤ x := Int.floor_le x
    have h2 : x < ((⌊x⌋ : Int) : ℚ) + 1 := Int.lt_floor_add_one x
    congr 1
    split_ifs with hc
    · symm
      rw [Int.floor_eq_iff]
      push_cast
      constructor <;> linarith
    · push_neg at hc
      symm
      rw [Int.floor_eq_iff]
      constructor <;> linarith
  · have hn : 0 ≤ -x := by linarith
    have h0 := c_round_neg (-x)
    rw [neg_neg] at h0
    rw [h0, c_round_of_nonneg hn]
    simp only [round_half_away, if_neg (not_le.mpr h)]
    have h1 : ((⌊-x⌋ : Int) : ℚ) ≤ -x := Int.floor_le _
    have h2 : -x < ((⌊-x⌋ : Int) : ℚ) + 1 := Int.lt_floor_add_one _
    rw [← Int.cast_neg]
    congr 1
    split_ifs with hc
    · symm
      rw [Int.ceil_eq_iff]
      push_cast
      constructor <;> linarith
    · push_neg at hc
      symm
      rw [Int.ceil_eq_iff]
      push_cast
      constructor <;> linarith

/-- The function `round` gives the integer that is less than a half away. -/
theorem c_round_eq_of_near {t : ℚ} {N : Int} (h : |t - (N : ℚ)| < 1 / 2) :
    c_round t = (N : ℚ) := by
  rw [abs_lt] at h
  rw [c_round_eq_round_half_away]
  congr 1
  unfold round_half_away
  split_ifs
  · rw [Int.floor_eq_iff]
    constructor <;> linarith [h.1, h.2]
  · rw [Int.ceil_eq_iff]
    constructor <;> linarith [h.1, h.2]

/-! ### Rounding to the `double` format -/

theorem round_half_even_int (k : Int) : round_half_even (k : ℚ) = k := by
  simp [round_half_even]

theorem round_half_even_floor_cases (x : ℚ) :
    round_half_even x = ⌊x⌋ ∨ round_half_even x = ⌊x⌋ + 1 := by
  unfold round_half_even
  simp only
  split_ifs <;> simp

theorem round_half_even_mono {x y : ℚ} (h : x ≤ y) : round_half_even x ≤ round_half_even y := by
  have hf : ⌊x⌋ ≤ ⌊y⌋ := Int.floor_mono h
  rcases lt_or_eq_of_le hf with hlt | heq
  · have h1 : round_half_even x ≤ ⌊x⌋ + 1 := by
      rcases round_half_even_floor_cases x with e | e <;> omega
    have h2 : ⌊y⌋ ≤ round_half_even y := by
      rcases round_half_even_floor_cases y with e | e <;> omega
    omega
  · unfold round_half_even
    simp only
    rw [← heq]
    have hxy : x - (⌊x⌋ : ℚ) ≤ y - (⌊x⌋ : ℚ) := by linarith
    split_ifs <;> first | omega | (exfalso; linarith)

theorem round_half_even_neg (x : ℚ) : round_half_even (-x) = -round_half_even x := by
  by_cases hx : (⌊x⌋ : ℚ) = x
  · rw [← hx, ← Int.cast_neg, round_half_even_int, round_half_even_int]
  · have h1 : ((⌊x⌋ : Int) : ℚ) ≤ x := Int.floor_le x
    have h2 : x < ((⌊x⌋ : Int) : ℚ) + 1 := Int.lt_floor_add_one x
    have h3 : ((⌊x⌋ : Int) : ℚ) < x := lt_of_le_of_ne h1 hx
    have hf : ⌊-x⌋ = -⌊x⌋ - 1 := by
      rw [Int.floor_eq_iff]
      push_cast
      constructor <;> linarith
    unfold round_half_even
    simp only
    rw [hf]
    push_cast
    split_ifs <;> first | omega | (exfalso; linarith)

theorem round_half_even_near (x : ℚ) : |(round_half_even x : ℚ) - x| ≤ 1 / 2 := by
  have h1 : ((⌊x⌋ : Int) : ℚ) ≤ x := Int.floor_le x
  have h2 : x < ((⌊x⌋ : Int) : ℚ) + 1 := Int.lt_floor_add_one x
  unfold round_half_even
  rw [abs_le]
  simp only
  split_ifs with c1 c2 c3
  · constructor <;> linarith
  · push_cast
    constructor <;> linarith
  · constructor <;> linarith
  · push_cast
    constructor <;> linarith

theorem round_half_even_nonneg {x : ℚ} (hx : 0 ≤ x) : 0 ≤ round_half_even x := by
  have h0 : (0 : Int) ≤ ⌊x⌋ := Int.floor_nonneg.mpr hx
  unfold round_half_even
  simp only
  split_ifs <;> omega

/-- Rounding to even gives the integer that is less than a half away. -/
theorem round_half_even_eq_of_near {y : ℚ} {N : Int} (h : |y - (N : ℚ)| < 1 / 2) :
    round_half_even y = N := by
  rw [abs_lt] at h
  rcases le_or_lt (N : ℚ) y with hy | hy
  · have hf : ⌊y⌋ = N := by
      rw [Int.floor_eq_iff]
      constructor <;> linarith [h.1, h.2]
    unfold round_half_even
    simp only
    rw [hf, if_pos (by linarith [h.2])]
  · have hf : ⌊y⌋ = N - 1 := by
      rw [Int.floor_eq_iff]
      push_cast
      constructor <;> linarith [h.1, h.2]
    unfold round_half_even
    simp only
    rw [hf]
    push_cast
    rw [if_neg (by linarith [h.1]), if_pos (by linarith [h.1])]
    ring

/-- The binade of a non-zero number: `2 ^ e ≤ |x| < 2 ^ (e + 1)` for `e = Int.log 2 |x|`. -/
theorem binade_bounds {x : ℚ} (hx : x ≠ 0) :
    (2 : ℚ) ^ Int.log 2 |x| ≤ |x| ∧ |x| < (2 : ℚ) ^ (Int.log 2 |x| + 1) := by
  have h1 := Int.zpow_log_le_self (b := 2) (r := |x|) (by norm_num) (abs_pos.mpr hx)
  have h2 := Int.lt_zpow_succ_log_self (b := 2) (by norm_num) |x|
  exact ⟨by exact_mod_cast h1, by exact_mod_cast h2⟩

theorem ulp_pos (e : Int) : (0 : ℚ) < 2 ^ e := zpow_pos (by norm_num) e

theorem fl64_of_ne_zero {x : ℚ} (hx : x ≠ 0) :
    fl64 x = (round_half_even (x / 2 ^ (Int.log 2 |x| - 52)) : ℚ) * 2 ^ (Int.log 2 |x| - 52) := by
  simp only [fl64, if_neg hx]

theorem fl64_zero : fl64 0 = 0 := by simp [fl64]

theorem fl64_neg (x : ℚ) : fl64 (-x) = -fl64 x := by
  by_cases hx : x = 0
  · subst hx
    simp [fl64_zero]
  · have hx1 : -x ≠ 0 := neg_ne_zero.mpr hx
    rw [fl64_of_ne_zero hx, fl64_of_ne_zero hx1, abs_neg, neg_div, round_half_even_neg]
    push_cast
    ring

/-- The scaled significand of a positive number lies in `[2 ^ 52, 2 ^ 53)`. -/
theorem significand_bounds {x : ℚ} (hx : 0 < x) :
    (2 : ℚ) ^ (52 : ℕ) ≤ x / 2 ^ (Int.log 2 |x| - 52) ∧
      x / 2 ^ (Int.log 2 |x| - 52) < (2 : ℚ) ^ (53 : ℕ) := by
  obtain ⟨h1, h2⟩ := binade_bounds (ne_of_gt hx)
  rw [abs_of_pos hx] at h1 h2 ⊢
  have hu := ulp_pos (Int.log 2 x - 52)
  have e1 : (2 : ℚ) ^ (52 : ℕ) * 2 ^ (Int.log 2 x - 52) = 2 ^ Int.log 2 x := by
    rw [← zpow_natCast, ← zpow_add₀ (by norm_num)]
    congr 1
    push_cast
    ring
  have e2 : (2 : ℚ) ^ (53 : ℕ) * 2 ^ (Int.log 2 x - 52) = 2 ^ (Int.log 2 x + 1) := by
    rw [← zpow_natCast, ← zpow_add₀ (by norm_num)]
    congr 1
    push_cast
    ring
  constructor
  · rw [le_div_iff₀ hu, e1]
    exact h1
  · rw [div_lt_iff₀ hu, e2]
    exact h2

/-- A positive number rounds into the closure of its binade. -/
theorem fl64_binade {x : ℚ} (hx : 0 < x) :
    (2 : ℚ) ^ Int.log 2 |x| ≤ fl64 x ∧ fl64 x ≤ (2 : ℚ) ^ (Int.log 2 |x| + 1) := by
  obtain ⟨h1, h2⟩ := significand_bounds hx
  have hu := ulp_pos (Int.log 2 |x| - 52)
  have m1 : ((2 ^ (52 : ℕ) : Int) : ℚ) ≤ x / 2 ^ (Int.log 2 |x| - 52) := by
    push_cast
    exact h1
  have m2 : x / 2 ^ (Int.log 2 |x| - 52) ≤ ((2 ^ (53 : ℕ) : Int) : ℚ) := by
    push_cast
    exact le_of_lt h2
  have r1 := round_half_even_mono m1
  have r2 := round_half_even_mono m2
  rw [round_half_even_int] at r1 r2
  have q1 : (2 : ℚ) ^ (52 : ℕ) ≤ (round_half_even (x / 2 ^ (Int.log 2 |x| - 52)) : ℚ) := by
    exact_mod_cast r1
  have q2 : (round_half_even (x / 2 ^ (Int.log 2 |x| - 52)) : ℚ) ≤ (2 : ℚ) ^ (53 : ℕ) := by
    exact_mod_cast r2
  have e1 : (2 : ℚ) ^ (52 : ℕ) * 2 ^ (Int.log 2 |x| - 52) = 2 ^ Int.log 2 |x| := by
    rw [← zpow_natCast, ← zpow_add₀ (by norm_num)]
    congr 1
    push_cast
    ring
  have e2 : (2 : ℚ) ^ (53 : ℕ) * 2 ^ (Int.log 2 |x| - 52) = 2 ^ (Int.log 2 |x| + 1) := by
    rw [← zpow_natCast, ← zpow_add₀ (by norm_num)]
    congr 1
    push_cast
    ring
  rw [fl64_of_ne_zero (ne_of_gt hx), ← e1, ← e2]
  constructor
  · exact mul_le_mul_of_nonneg_right q1 (le_of_lt hu)
  · exact mul_le_mul_of_nonneg_right q2 (le_of_lt hu)

theorem fl64_nonneg {x : ℚ} (hx : 0 ≤ x) : 0 ≤ fl64 x := by
  rcases eq_or_lt_of_le hx with h | h
  · rw [← h, fl64_zero]
  · exact le_trans (le_of_lt (ulp_pos _)) (fl64_binade h).1

theorem fl64_mono_pos {x y : ℚ} (hx : 0 < x) (h : x ≤ y) : fl64 x ≤ fl64 y := by
  have hy : 0 < y := lt_of_lt_of_le hx h
  have hl : Int.log 2 |x| ≤ Int.log 2 |y| := by
    rw [abs_of_pos hx, abs_of_pos hy]
    exact Int.log_mono_right hx h
  rcases lt_or_eq_of_le hl with hlt | heq
  · have h1 := (fl64_binade hx).2
    have h2 := (fl64_binade hy).1
    have h3 : (2 : ℚ) ^ (Int.log 2 |x| + 1) ≤ 2 ^ Int.log 2 |y| :=
      zpow_le_zpow_right₀ (by norm_num) (by omega)
    linarith
  · rw [fl64_of_ne_zero (ne_of_gt hx), fl64_of_ne_zero (ne_of_gt hy), heq]
    have hu := ulp_pos (Int.log 2 |y| - 52)
    apply mul_le_mul_of_nonneg_right _ (le_of_lt hu)
    have : x / 2 ^ (Int.log 2 |y| - 52) ≤ y / 2 ^ (Int.log 2 |y| - 52) :=
      div_le_div_of_nonneg_right h (le_of_lt hu)
    exact_mod_cast round_half_even_mono this

theorem fl64_mono {x y : ℚ} (h : x ≤ y) : fl64 x ≤ fl64 y := by
  rcases lt_trichotomy 0 x with hx | hx | hx
  · exact fl64_mono_pos hx h
  · rw [← hx] at h ⊢
    rw [fl64_zero]
    exact fl64_nonneg h
  · rcases le_or_lt 0 y with hy | hy
    · have h1 := fl64_nonneg (x := -x) (by linarith)
      rw [fl64_neg] at h1
      have h2 := fl64_nonneg hy
      linarith
    · have h1 := fl64_mono_pos (x := -y) (y := -x) (by linarith) (by linarith)
      rw [fl64_neg, fl64_neg] at h1
      linarith

theorem fl64_error (x : ℚ) : |fl64 x - x| ≤ |x| / 2 ^ (53 : ℕ) := by
  by_cases hx : x = 0
  · subst hx
    simp [fl64_zero]
  · obtain ⟨h1, _⟩ := binade_bounds hx
    have hu := ulp_pos (Int.log 2 |x| - 52)
    have h3 := round_half_even_near (x / 2 ^ (Int.log 2 |x| - 52))
    rw [fl64_of_ne_zero hx]
    have e : (round_half_even (x / 2 ^ (Int.log 2 |x| - 52)) : ℚ) * 2 ^ (Int.log 2 |x| - 52) - x =
        ((round_half_even (x / 2 ^ (Int.log 2 |x| - 52)) : ℚ) - x / 2 ^ (Int.log 2 |x| - 52)) *
          2 ^ (Int.log 2 |x| - 52) := by
      field_simp
    rw [e, abs_mul, abs_of_pos hu]
    have e2 : (2 : ℚ) ^ (Int.log 2 |x| - 52) = 2 ^ Int.log 2 |x| / 2 ^ (52 : ℕ) := by
      rw [zpow_sub₀ (by norm_num)]
      norm_cast
    calc |(round_half_even (x / 2 ^ (Int.log 2 |x| - 52)) : ℚ) - x / 2 ^ (Int.log 2 |x| - 52)| *
          2 ^ (Int.log 2 |x| - 52)
        ≤ 1 / 2 * 2 ^ (Int.log 2 |x| - 52) := mul_le_mul_of_nonneg_right h3 (le_of_lt hu)
      _ = 2 ^ Int.log 2 |x| / 2 ^ (53 : ℕ) := by
        rw [e2]
        norm_num
        ring
      _ ≤ |x| / 2 ^ (53 : ℕ) := div_le_div_of_nonneg_right h1 (by positivity)

/-- A number whose scaled significand is an integer is representable. -/
theorem fl64_of_int_significand {x : ℚ} (hx : x ≠ 0) (j : Int)
    (h : x / 2 ^ (Int.log 2 |x| - 52) = (j : ℚ)) : fl64 x = x := by
  have hu := ulp_pos (Int.log 2 |x| - 52)
  rw [fl64_of_ne_zero hx, h, round_half_even_int, ← h]
  field_simp

/-- The numbers `n * 2 ^ k` with `|n| ≤ 2 ^ 53` are representable. -/
theorem fl64_dyadic (n k : Int) (hn : |n| ≤ 2 ^ 53) :
    fl64 ((n : ℚ) * 2 ^ k) = (n : ℚ) * 2 ^ k := by
  by_cases h0 : n = 0
  · subst h0
    simp [fl64_zero]
  have hk := ulp_pos k
  have hx : (n : ℚ) * 2 ^ k ≠ 0 := mul_ne_zero (by exact_mod_cast h0) (ne_of_gt hk)
  obtain ⟨h1, h2⟩ := binade_bounds hx
  generalize he : Int.log 2 |(n : ℚ) * 2 ^ k| = e at h1 h2
  have habs : |(n : ℚ) * 2 ^ k| = (|n| : ℚ) * 2 ^ k := by
    rw [abs_mul, abs_of_pos hk]
  rw [habs] at h1 h2
  have hn1 : (1 : ℚ) ≤ |(n : ℚ)| := by
    have : (1 : Int) ≤ |n| := Int.one_le_abs h0
    exact_mod_cast this
  have hn2 : |(n : ℚ)| ≤ 2 ^ (53 : ℕ) := by exact_mod_cast hn
  -- the binade of `n` itself is `e - k`, between 0 and 53
  have b1 : (2 : ℚ) ^ (e - k) ≤ |(n : ℚ)| := by
    rw [zpow_sub₀ (by norm_num), div_le_iff₀ hk]
    exact h1
  have b2 : |(n : ℚ)| < (2 : ℚ) ^ (e - k + 1) := by
    have e1 : (2 : ℚ) ^ (e - k + 1) = 2 ^ (e + 1) / 2 ^ k := by
      rw [← zpow_sub₀ (by norm_num)]
      congr 1
      ring
    rw [e1, lt_div_iff₀ hk]
    exact h2
  have c1 : 0 ≤ e - k := by
    by_contra hc
    push_neg at hc
    have : (2 : ℚ) ^ (e - k + 1) ≤ 2 ^ (0 : Int) := zpow_le_zpow_right₀ (by norm_num) (by omega)
    rw [zpow_zero] at this
    linarith
  have c2 : e - k ≤ 53 := by
    by_contra hc
    push_neg at hc
    have : (2 : ℚ) ^ ((54 : ℕ) : Int) ≤ 2 ^ (e - k) :=
      zpow_le_zpow_right₀ (by norm_num) (by push_cast; omega)
    rw [zpow_natCast] at this
    have : (2 : ℚ) ^ (54 : ℕ) ≤ 2 ^ (53 : ℕ) := by linarith
    norm_num at this
  have hscale : (n : ℚ) * 2 ^ k / 2 ^ (e - 52) = (n : ℚ) * 2 ^ (52 - (e - k)) := by
    rw [mul_div_assoc, ← zpow_sub₀ (by norm_num)]
    congr 2
    ring
  rcases lt_or_eq_of_le c2 with c3 | c3
  · -- at most 53 bits: the scaled significand is `n * 2 ^ (52 - (e - k))`
    obtain ⟨m, hm⟩ : ∃ m : ℕ, 52 - (e - k) = (m : Int) := ⟨(52 - (e - k)).toNat, by omega⟩
    apply fl64_of_int_significand hx (n * 2 ^ m)
    rw [he, hscale, hm, zpow_natCast]
    push_cast
    rfl
  · -- `|n| = 2 ^ 53`: the scaled significand is `n / 2`
    rw [c3] at b1
    have hn3 : |n| = 2 ^ 53 := by
      have : (2 : ℚ) ^ ((53 : ℕ) : Int) ≤ |(n : ℚ)| := by exact_mod_cast b1
      rw [zpow_natCast] at this
      have h4 : ((2 ^ 53 : Int) : ℚ) ≤ ((|n| : Int) : ℚ) := by
        push_cast
        exact this
      have h5 : (2 ^ 53 : Int) ≤ |n| := by exact_mod_cast h4
      omega
    obtain ⟨j, hj⟩ : ∃ j : Int, n = 2 * j := by
      rcases abs_eq (by norm_num : (0 : Int) ≤ 2 ^ 53) |>.mp hn3 with h | h
      · exact ⟨2 ^ 52, by rw [h]; norm_num⟩
      · exact ⟨-2 ^ 52, by rw [h]; norm_num⟩
    apply fl64_of_int_significand hx j
    rw [he, hscale, c3, hj]
    push_cast
    norm_num
    ring

/-- The binary64 rounding of a number whose binade is known. -/
theorem fl64_eq_of_binade {x : ℚ} (e : Int) (h1 : (2 : ℚ) ^ e ≤ |x|)
    (h2 : |x| < (2 : ℚ) ^ (e + 1)) :
    fl64 x = (round_half_even (x / 2 ^ (e - 52)) : ℚ) * 2 ^ (e - 52) := by
  have hpos : 0 < |x| := lt_of_lt_of_le (ulp_pos e) h1
  have hx : x ≠ 0 := abs_pos.mp hpos
  have hlog : Int.log 2 |x| = e := by
    apply le_antisymm
    · have := (Int.lt_zpow_iff_log_lt (b := 2) (by norm_num) hpos (x := e + 1)).mp
        (by exact_mod_cast h2)
      omega
    · exact (Int.zpow_le_iff_le_log (b := 2) (by norm_num) hpos).mp (by exact_mod_cast h1)
  rw [fl64_of_ne_zero hx, hlog]

theorem exactArith_sound : exactArith.Sound where
  mono := fun _ _ h => h
  neg := fun _ => rfl
  dyadic := fun _ _ _ => rfl
  error := fun x => by
    show |x - x| ≤ |x| / 2 ^ 53
    rw [sub_self, abs_zero]
    positivity

theorem binary64_sound : binary64.Sound where
  mono := fun _ _ h => fl64_mono h
  neg := fl64_neg
  dyadic := fl64_dyadic
  error := fl64_error

theorem DoubleModel.Sound.rnd_int {F : DoubleModel} (hF : F.Sound) (n : Int)
    (h : |n| ≤ 2 ^ 53) : F.rnd (n : ℚ) = (n : ℚ) := by
  have := hF.dyadic n 0 h
  simpa using this

theorem DoubleModel.Sound.rnd_small_int {F : DoubleModel} (hF : F.Sound) (n : Int)
    (h1 : INT_MIN ≤ n) (h2 : n ≤ INT_MAX) : F.rnd (n : ℚ) = (n : ℚ) := by
  apply hF.rnd_int
  simp only [INT_MIN, INT_MAX] at h1 h2
  rw [abs_le]
  constructor <;> omega

theorem DoubleModel.Sound.rnd_abs_le {F : DoubleModel} (hF : F.Sound) {x : ℚ} {M : Int}
    (hM : |M| ≤ 2 ^ 53) (h : |x| ≤ (M : ℚ)) : |F.rnd x| ≤ (M : ℚ) := by
  rw [abs_le] at h ⊢
  have h1 := hF.mono _ _ h.1
  have h2 := hF.mono _ _ h.2
  rw [hF.neg, hF.rnd_int M hM] at h1
  rw [hF.rnd_int M hM] at h2
  exact ⟨h1, h2⟩

/-! ### The value of `rsc_rand` -/

/-- The `double` part of `rsc_rand` never fails on a non-zero divisor, and has this closed
form. -/
theorem rsc_value_eq {F : DoubleModel} (hF : F.Sound) {r d : Int} (hr1 : INT_MIN ≤ r) (hr2 : r ≤ INT_MAX)
    (hd1 : INT_MIN ≤ d) (hd2 : d ≤ INT_MAX) (hd0 : d ≠ 0) :
    rsc_value F r d =
      some (F.rnd (c_round (F.rnd (F.rnd ((r : ℚ) / (d : ℚ)) * 100)) / 100)) := by
  have hd : F.rnd (d : ℚ) = (d : ℚ) := hF.rnd_small_int _ hd1 hd2
  have hrr : F.rnd (r : ℚ) = (r : ℚ) := hF.rnd_small_int _ hr1 hr2
  have hc : F.rnd ((100 : Int) : ℚ) = ((100 : Int) : ℚ) :=
    hF.rnd_small_int _ (by decide) (by decide)
  have hd0 : (d : ℚ) ≠ 0 := by exact_mod_cast hd0
  simp only [rsc_value, to_double, double_div, double_mul, hd, hrr,
    hc, Option.bind_eq_bind, Option.some_bind, if_neg hd0]
  norm_num

/-- The two integer draws of `rsc_rand` and its `double` arithmetic never fail on
non-negative outputs of `rand()`, and the result has this closed form. -/
theorem rsc_rand_calc_eq {F : DoubleModel} (hF : F.Sound) (a b : Int) (ha : 0 ≤ a)
    (hb : 0 ≤ b) :
    rsc_rand_calc F a b =
      some (F.rnd (c_round (F.rnd (F.rnd (((-65536 + b % 131073 : Int) : ℚ) /
        ((2 + a % 11 : Int) : ℚ)) * 100)) / 100)) := by
  have ha1 : 0 ≤ a % 11 := Int.emod_nonneg _ (by norm_num)
  have ha2 : a % 11 < 11 := Int.emod_lt_of_pos _ (by norm_num)
  have hb1 : 0 ≤ b % 131073 := Int.emod_nonneg _ (by norm_num)
  have hb2 : b % 131073 < 131073 := Int.emod_lt_of_pos _ (by norm_num)
  simp only [rsc_rand_calc, rsc_divisor_eq ha, rsc_base_eq hb, Option.bind_eq_bind,
    Option.some_bind]
  exact rsc_value_eq hF (by simp only [INT_MIN]; omega) (by simp only [INT_MAX]; omega)
    (by simp only [INT_MIN]; omega) (by simp only [INT_MAX]; omega) (by omega)

/-- The quotient of a base offset by a divisor is at most 32768 in magnitude. -/
theorem quotient_abs_le {r d : Int} (hr : |r| ≤ 65536) (hd : 2 ≤ d) :
    |(r : ℚ) / (d : ℚ)| ≤ ((32768 : Int) : ℚ) := by
  have hd0 : (0 : ℚ) < (d : ℚ) := by exact_mod_cast (by omega : (0 : Int) < d)
  have hd2 : (2 : ℚ) ≤ (d : ℚ) := by exact_mod_cast hd
  have hr1 : |(r : ℚ)| ≤ 65536 := by exact_mod_cast hr
  rw [abs_div, abs_of_pos hd0, div_le_iff₀ hd0]
  push_cast
  nlinarith [abs_nonneg (r : ℚ)]

/-- The closed form of `rsc_rand` stays within `[-32768, 32768]`. -/
theorem closed_form_abs_le {F : DoubleModel} (hF : F.Sound) {r d : Int} (hr : |r| ≤ 65536) (hd : 2 ≤ d) :
    |F.rnd (c_round (F.rnd (F.rnd ((r : ℚ) / (d : ℚ)) * 100)) / 100)| ≤ 32768 := by
  have h1 : |F.rnd ((r : ℚ) / (d : ℚ))| ≤ ((32768 : Int) : ℚ) :=
    hF.rnd_abs_le (by norm_num) (quotient_abs_le hr hd)
  have h2 : |F.rnd ((r : ℚ) / (d : ℚ)) * 100| ≤ ((3276800 : Int) : ℚ) := by
    rw [abs_mul]
    push_cast at h1 ⊢
    norm_num
    linarith
  have h3 : |F.rnd (F.rnd ((r : ℚ) / (d : ℚ)) * 100)| ≤ ((3276800 : Int) : ℚ) :=
    hF.rnd_abs_le (by norm_num) h2
  have h4 := c_round_abs_le h3
  have h5 : |c_round (F.rnd (F.rnd ((r : ℚ) / (d : ℚ)) * 100)) / 100| ≤
      ((32768 : Int) : ℚ) := by
    rw [abs_div]
    push_cast at h4 ⊢
    norm_num
    linarith
  have h6 := hF.rnd_abs_le (by norm_num) h5
  exact_mod_cast h6

theorem rsc_rand_calc_bounds {F : DoubleModel} (hF : F.Sound) (a b : Int) (ha : 0 ≤ a)
    (hb : 0 ≤ b) : ∃ v : ℚ, rsc_rand_calc F a b = some v ∧ -32768 ≤ v ∧ v ≤ 32768 := by
  refine ⟨_, rsc_rand_calc_eq hF a b ha hb, ?_⟩
  exact abs_le.mp (closed_form_abs_le hF (base_abs_le b) (divisor_ge_two a))

/-- The rounding errors of the division and of the multiplication by 100 together stay
below a thousandth. -/
theorem scaled_quotient_error {F : DoubleModel} (hF : F.Sound) {q : ℚ} (hq : |q| ≤ 32768) :
    |F.rnd (F.rnd q * 100) - q * 100| ≤ 1 / 1000 := by
  have e1 := hF.error q
  have e2 := hF.error (F.rnd q * 100)
  have h1 : |F.rnd q - q| ≤ 32768 / 2 ^ 53 := le_trans e1 (by gcongr)
  have h2 : |F.rnd q| ≤ 32769 := by
    have := abs_sub_abs_le_abs_sub (F.rnd q) q
    have h3 : (32768 : ℚ) / 2 ^ 53 ≤ 1 := by norm_num
    linarith
  have h4 : |F.rnd q * 100| ≤ 3276900 := by
    rw [abs_mul]
    norm_num
    linarith
  have h5 : |F.rnd (F.rnd q * 100) - F.rnd q * 100| ≤ 3276900 / 2 ^ 53 :=
    le_trans e2 (by gcongr)
  have h6 : F.rnd (F.rnd q * 100) - q * 100 =
      (F.rnd (F.rnd q * 100) - F.rnd q * 100) + (F.rnd q - q) * 100 := by ring
  rw [h6]
  refine le_trans (abs_add _ _) ?_
  rw [abs_mul]
  have h7 : |(100 : ℚ)| = 100 := by norm_num
  rw [h7]
  have h8 : (3276900 : ℚ) / 2 ^ 53 + 32768 / 2 ^ 53 * 100 ≤ 1 / 1000 := by norm_num
  nlinarith

/-- Rounding the quotient and its product by 100 does not change the integer `round`
gives: either `100 * r / d` is at least `1 / 24` away from every tie, or it is a tie, the
divisor is 8 and both operations are exact. -/
theorem c_round_scaled_quotient {F : DoubleModel} (hF : F.Sound) {r d : Int}
    (hr : |r| ≤ 65536) (hd1 : 2 ≤ d) (hd2 : d ≤ 12) :
    c_round (F.rnd (F.rnd ((r : ℚ) / (d : ℚ)) * 100)) =
      (round_half_away (100 * ((r : ℚ) / (d : ℚ))) : ℚ) := by
  have hd0 : (0 : ℚ) < (d : ℚ) := by exact_mod_cast (by omega : (0 : Int) < d)
  have hq := quotient_abs_le hr hd1
  have herr := scaled_quotient_error hF (by exact_mod_cast hq : |(r : ℚ) / (d : ℚ)| ≤ 32768)
  obtain ⟨hN, _⟩ := round_half_away_nearest (100 * ((r : ℚ) / (d : ℚ)))
  generalize hNdef : round_half_away (100 * ((r : ℚ) / (d : ℚ))) = N at hN ⊢
  -- `2 * d * (N - 100 * r / d)` is the integer `2 * d * N - 200 * r`, at most `d` in size
  have hk : (N : ℚ) - 100 * ((r : ℚ) / (d : ℚ)) = ((2 * d * N - 200 * r : Int) : ℚ) / (2 * d) := by
    push_cast
    field_simp
    ring
  have hk1 : |((2 * d * N - 200 * r : Int) : ℚ)| ≤ (d : ℚ) := by
    rw [hk, abs_div, abs_of_pos (by linarith : (0 : ℚ) < 2 * d), div_le_iff₀ (by linarith)] at hN
    linarith
  have hk2 : |2 * d * N - 200 * r| ≤ d := by exact_mod_cast hk1
  by_cases htie : |2 * d * N - 200 * r| = d
  · -- a tie: the divisor is 8 and nothing is rounded
    have hd8 : d = 8 := by
      rcases abs_eq (by omega : (0 : Int) ≤ d) |>.mp htie with h | h <;>
      · interval_cases d <;> omega
    subst hd8
    have x1 : F.rnd ((r : ℚ) / ((8 : Int) : ℚ)) = (r : ℚ) / ((8 : Int) : ℚ) := by
      have := hF.dyadic r (-3) (by rw [abs_le] at hr ⊢; constructor <;> omega)
      have e : (r : ℚ) * 2 ^ (-3 : Int) = (r : ℚ) / ((8 : Int) : ℚ) := by
        rw [zpow_neg]
        norm_num
        ring
      rw [e] at this
      exact this
    have x2 : F.rnd ((r : ℚ) / ((8 : Int) : ℚ) * 100) = (r : ℚ) / ((8 : Int) : ℚ) * 100 := by
      have := hF.dyadic (25 * r) (-1) (by rw [abs_le] at hr ⊢; constructor <;> omega)
      have e : ((25 * r : Int) : ℚ) * 2 ^ (-1 : Int) = (r : ℚ) / ((8 : Int) : ℚ) * 100 := by
        rw [zpow_neg]
        push_cast
        norm_num
        ring
      rw [e] at this
      exact this
    rw [x1, x2, c_round_eq_round_half_away, mul_comm, hNdef]
  · -- no tie: the exact value is at least `1 / (2 * d)` inside the rounding interval
    have hk3 : |2 * d * N - 200 * r| ≤ d - 1 := by
      have := lt_of_le_of_ne hk2 htie
      omega
    have hk4 : |((2 * d * N - 200 * r : Int) : ℚ)| ≤ (d : ℚ) - 1 := by exact_mod_cast hk3
    have hN2 : |(N : ℚ) - 100 * ((r : ℚ) / (d : ℚ))| ≤ 11 / 24 := by
      rw [hk, abs_div, abs_of_pos (by linarith : (0 : ℚ) < 2 * d), div_le_iff₀ (by linarith)]
      have : (d : ℚ) ≤ 12 := by exact_mod_cast hd2
      linarith
    apply c_round_eq_of_near
    have e : F.rnd (F.rnd ((r : ℚ) / (d : ℚ)) * 100) - (N : ℚ) =
        (F.rnd (F.rnd ((r : ℚ) / (d : ℚ)) * 100) - (r : ℚ) / (d : ℚ) * 100) -
          ((N : ℚ) - 100 * ((r : ℚ) / (d : ℚ))) := by ring
    rw [e]
    refine lt_of_le_of_lt (abs_sub _ _) ?_
    have : (1 : ℚ) / 1000 + 11 / 24 < 1 / 2 := by norm_num
    linarith

/-- Under every sound rounding, the body of `rsc_rand` returns the rounding of the value of
the specification's algorithm: in binary64 arithmetic it returns the `double` nearest to
`round(100 * r / d) / 100`. -/
theorem rsc_rand_calc_rnd_spec {F : DoubleModel} (hF : F.Sound) (a b : Int) (ha : 0 ≤ a)
    (hb : 0 ≤ b) : rsc_rand_calc F a b = some (F.rnd (rsc_rand_spec a b)) := by
  have ha2 : a % 11 < 11 := Int.emod_lt_of_pos _ (by norm_num)
  rw [rsc_rand_calc_eq hF a b ha hb,
    c_round_scaled_quotient hF (base_abs_le b) (divisor_ge_two a) (by omega)]
  rfl

/-- In exact arithmetic the body of `rsc_rand` is the specification's algorithm. -/
theorem rsc_rand_calc_exact (a b : Int) (ha : 0 ≤ a) (hb : 0 ≤ b) :
    rsc_rand_calc exactArith a b = some (rsc_rand_spec a b) := by
  rw [rsc_rand_calc_eq exactArith_sound a b ha hb]
  simp only [exactArith, rsc_rand_spec, c_round_eq_round_half_away]
  rw [mul_comm (100 : ℚ)]

theorem rsc_rand_spec_two_decimals (a b : Int) : ∃ n : Int, 100 * rsc_rand_spec a b = (n : ℚ) := by
  refine ⟨round_half_away (100 * (((-65536 + b % 131073 : Int) : ℚ) /
      ((2 + a % 11 : Int) : ℚ))), ?_⟩
  simp only [rsc_rand_spec]
  ring

/-- In binary64 the value `rsc_rand` returns for the draws `a = 6`, `b = 65537` is the
`double` nearest to `0.13`, which is not a multiple of a hundredth. -/
theorem rsc_rand_binary64_example :
    rsc_rand_calc binary64 6 65537 = some (1170935903116329 / 9007199254740992) ∧
    ¬ ∃ n : Int, 100 * (1170935903116329 / 9007199254740992 : ℚ) = (n : ℚ) := by
  constructor
  · rw [rsc_rand_calc_rnd_spec binary64_sound 6 65537 (by decide) (by decide)]
    have e1 : rsc_rand_spec 6 65537 = 13 / 100 := by
      norm_num [rsc_rand_spec, round_half_away]
    have e2 : fl64 (13 / 100) = 1170935903116329 / 9007199254740992 := by
      rw [fl64_eq_of_binade (-3) (by norm_num [abs_of_pos, zpow_neg])
        (by norm_num [abs_of_pos, zpow_neg])]
      have h : round_half_even ((13 / 100 : ℚ) / 2 ^ ((-3 : Int) - 52)) = 4683743612465316 := by
        apply round_half_even_eq_of_near
        norm_num [zpow_neg, abs_lt]
      rw [h]
      norm_num [zpow_neg]
    show some (fl64 (rsc_rand_spec 6 65537)) = _
    rw [e1, e2]
  · rintro ⟨n, hn⟩
    have h1 : (n : ℚ) = 29273397577908225 / 2251799813685248 := by
      rw [← hn]
      norm_num
    have h2 : ((n * 2251799813685248 : Int) : ℚ) = ((29273397577908225 : Int) : ℚ) := by
      push_cast
      rw [h1]
      norm_num
    have h3 : n * 2251799813685248 = 29273397577908225 := by exact_mod_cast h2
    omega

/-! ### The claims on `rsc_rand` -/

/-- C1. For every pair of successive non-negative outputs `a`, `b` of the pseudo-random
source, `rsc_rand` returns a value, and that value lies in the closed interval
`[-32768, 32768]`; this holds in exact arithmetic and under every rounding of `double`. -/
theorem rsc_rand_range (F : DoubleModel) (hF : F.Sound) (a b : Int) (ha : 0 ≤ a)
    (hb : 0 ≤ b) : ∃ v : ℚ, rsc_rand_calc F a b = some v ∧ -32768 ≤ v ∧ v ≤ 32768 :=
  rsc_rand_calc_bounds hF a b ha hb

/-- C1 at the draws `a = 5`, `b = 7`. -/
theorem rsc_rand_range_witness :
    (0 : Int) ≤ 5 ∧ (0 : Int) ≤ 7 ∧
      ∃ v : ℚ, rsc_rand_calc exactArith 5 7 = some v ∧ -32768 ≤ v ∧ v ≤ 32768 :=
  ⟨by decide, by decide, rsc_rand_range exactArith exactArith_sound 5 7 (by decide) (by decide)⟩

/-- C2. For every pair of successive non-negative outputs of the pseudo-random source, the
value `v` that `rsc_rand` returns in exact arithmetic has at most two decimal digits:
`100 * v` is an integer; under a sound rounding of `double`, such as binary64, the value
returned is the rounding of such a two-decimal number `n / 100`, and `100 * v` is within the
relative tolerance `2 ^ -53` of the integer `n`. -/
theorem rsc_rand_two_decimals (a b : Int) (ha : 0 ≤ a) (hb : 0 ≤ b) :
    (∃ (v : ℚ) (n : Int), rsc_rand_calc exactArith a b = some v ∧ 100 * v = (n : ℚ)) ∧
    ∀ F : DoubleModel, F.Sound →
      ∃ (v : ℚ) (n : Int), rsc_rand_calc F a b = some v ∧ v = F.rnd ((n : ℚ) / 100) ∧
        |100 * v - (n : ℚ)| ≤ |(n : ℚ)| / 2 ^ 53 := by
  obtain ⟨n, hn⟩ := rsc_rand_spec_two_decimals a b
  have hs : rsc_rand_spec a b = (n : ℚ) / 100 := by
    rw [← hn]
    ring
  constructor
  · exact ⟨_, n, rsc_rand_calc_exact a b ha hb, hn⟩
  · intro F hF
    refine ⟨_, n, rsc_rand_calc_rnd_spec hF a b ha hb, by rw [hs], ?_⟩
    rw [hs]
    have h := hF.error ((n : ℚ) / 100)
    have e1 : 100 * F.rnd ((n : ℚ) / 100) - (n : ℚ) =
        100 * (F.rnd ((n : ℚ) / 100) - (n : ℚ) / 100) := by ring
    have e2 : |(n : ℚ) / 100| = |(n : ℚ)| / 100 := by
      rw [abs_div]
      norm_num
    rw [e1, abs_mul, abs_of_pos (by norm_num : (0 : ℚ) < 100)]
    rw [e2] at h
    calc 100 * |F.rnd ((n : ℚ) / 100) - (n : ℚ) / 100|
        ≤ 100 * (|(n : ℚ)| / 100 / 2 ^ 53) := by linarith
      _ = |(n : ℚ)| / 2 ^ 53 := by ring

/-- C2 at the draws `a = 3`, `b = 4`. -/
theorem rsc_rand_two_decimals_witness :
    (0 : Int) ≤ 3 ∧ (0 : Int) ≤ 4 ∧
    (∃ (v : ℚ) (n : Int), rsc_rand_calc exactArith 3 4 = some v ∧ 100 * v = (n : ℚ)) :=
  ⟨by decide, by decide, (rsc_rand_two_decimals 3 4 (by decide) (by decide)).1⟩

/-- C3. `rsc_rand` equals the reference definition of the specification's algorithm: if `a`
is the first and `b` the second value it draws from the pseudo-random source, then in exact
arithmetic it returns `round(100 * r / d) / 100` for `d = 2 + (a mod 11)` and
`r = -65536 + (b mod 131073)`, with a real division and ties rounded away from zero, and
leaves the source in the state after the two draws; under a sound rounding of `double`, such
as binary64, it returns the rounding of that value; `r = 1, d = 8` (drawn from
`a = 6, b = 65537`) gives `0.13` and `r = -1, d = 8` (drawn from `a = 6, b = 65535`) gives
`-0.13`. -/
theorem rsc_rand_refines_spec (L : Libc) (w : World L) :
    rsc_rand L exactArith w =
      some (rsc_rand_spec (L.rand w.rng).1 (L.rand (L.rand w.rng).2).1,
        { w with rng := (L.rand (L.rand w.rng).2).2 }) ∧
    (∀ F : DoubleModel, F.Sound →
      rsc_rand L F w =
        some (F.rnd (rsc_rand_spec (L.rand w.rng).1 (L.rand (L.rand w.rng).2).1),
          { w with rng := (L.rand (L.rand w.rng).2).2 })) ∧
    rsc_rand_calc exactArith 6 65537 = some (13 / 100) ∧
    rsc_rand_spec 6 65537 = 13 / 100 ∧
    rsc_rand_calc exactArith 6 65535 = some (-13 / 100) ∧
    rsc_rand_spec 6 65535 = -13 / 100 := by
  have e1 : rsc_rand_spec 6 65537 = 13 / 100 := by
    norm_num [rsc_rand_spec, round_half_away]
  have e2 : rsc_rand_spec 6 65535 = -13 / 100 := by
    have h : ⌈(-13 : ℚ)⌉ = -13 := by
      rw [Int.ceil_eq_iff]
      norm_num
    norm_num [rsc_rand_spec, round_half_away, h]
  refine ⟨?_, ?_, ?_, e1, ?_, e2⟩
  · simp only [rsc_rand,
      rsc_rand_calc_exact _ _ (L.rand_nonneg w.rng) (L.rand_nonneg (L.rand w.rng).2),
      Option.map_some']
  · intro F hF
    simp only [rsc_rand,
      rsc_rand_calc_rnd_spec hF _ _ (L.rand_nonneg w.rng) (L.rand_nonneg (L.rand w.rng).2),
      Option.map_some']
  · rw [rsc_rand_calc_exact 6 65537 (by decide) (by decide), e1]
  · rw [rsc_rand_calc_exact 6 65535 (by decide) (by decide), e2]

/-- C6. `rsc_rand` cannot fail: for outputs `a`, `b` of the pseudo-random source with
`0 ≤ a, b ≤ RAND_MAX ≤ 2 ^ 31 - 1`, the divisor is `2 + a % 11`, at least 2 and so not
zero; the modulus `max - min + 1` is the `int` 131073; `b % 131073` and
`min + b % 131073` are computed without overflow and lie in the `int` range; and the whole
body returns a value. -/
theorem rsc_rand_cannot_fail (F : DoubleModel) (hF : F.Sound) (RAND_MAX a b : Int)
    (hmax : RAND_MAX ≤ 2 ^ 31 - 1) (ha0 : 0 ≤ a) (ha : a ≤ RAND_MAX) (hb0 : 0 ≤ b)
    (hb : b ≤ RAND_MAX) :
    int_result a = some a ∧ int_result b = some b ∧
    rsc_divisor a = some (2 + a % 11) ∧ 2 ≤ 2 + a % 11 ∧ 2 + a % 11 ≠ 0 ∧
    (int_sub max min).bind (fun w => int_add w 1) = some 131073 ∧
    int_mod b 131073 = some (b % 131073) ∧
    INT_MIN ≤ b % 131073 ∧ b % 131073 ≤ INT_MAX ∧
    rsc_base b = some (min + b % 131073) ∧
    INT_MIN ≤ min + b % 131073 ∧ min + b % 131073 ≤ INT_MAX ∧
    ∃ v : ℚ, rsc_rand_calc F a b = some v := by
  have ha1 : 0 ≤ a % 11 := Int.emod_nonneg _ (by norm_num)
  have hb1 : 0 ≤ b % 131073 := Int.emod_nonneg _ (by norm_num)
  have hb2 : b % 131073 < 131073 := Int.emod_lt_of_pos _ (by norm_num)
  have hmin : min = -65536 := rfl
  have hM : RAND_MAX ≤ INT_MAX := by simp only [INT_MAX]; omega
  have hI : INT_MIN ≤ 0 := by decide
  refine ⟨int_result_of_mem (by omega) (by omega), int_result_of_mem (by omega) (by omega),
    rsc_divisor_eq ha0, by omega, by omega, by decide,
    int_mod_of_nonneg hb0 (by norm_num), ?_, ?_, ?_, ?_, ?_, _, rsc_rand_calc_eq hF a b ha0 hb0⟩
  · simp only [INT_MIN]; omega
  · simp only [INT_MAX]; omega
  · rw [hmin]; exact rsc_base_eq hb0
  · simp only [INT_MIN, hmin]; omega
  · simp only [INT_MAX, hmin]; omega

/-- C6 at `a = b = RAND_MAX = 2147483647`. -/
theorem rsc_rand_cannot_fail_witness :
    (2147483647 : Int) ≤ 2 ^ 31 - 1 ∧ (0 : Int) ≤ 2147483647 ∧
    rsc_divisor 2147483647 = some (2 + 2147483647 % 11) ∧
    rsc_base 2147483647 = some (min + 2147483647 % 131073) ∧
    ∃ v : ℚ, rsc_rand_calc exactArith 2147483647 2147483647 = some v :=
  have h := rsc_rand_cannot_fail exactArith exactArith_sound 2147483647 2147483647 2147483647
    (by decide)
    (by decide) (by decide) (by decide) (by decide)
  ⟨by decide, by decide, h.2.2.1, h.2.2.2.2.2.2.2.2.2.1, h.2.2.2.2.2.2.2.2.2.2.2.2⟩

/-- C10. The generated value is an odd function of the base offset: for every rounding of
`double`, every divisor `d` in `2 .. 12` and every base offset `r` in `[-65536, 65536]`,
`rsc_rand` computes a value from `(r, d)` and computes its negation from `(-r, d)`. -/
theorem rsc_value_odd (F : DoubleModel) (hF : F.Sound) (r d : Int) (hd1 : 2 ≤ d) (hd2 : d ≤ 12)
    (hr1 : -65536 ≤ r) (hr2 : r ≤ 65536) :
    ∃ v : ℚ, rsc_value F r d = some v ∧ rsc_value F (-r) d = some (-v) := by
  have e1 := rsc_value_eq hF (r := r) (d := d) (by simp only [INT_MIN]; omega)
    (by simp only [INT_MAX]; omega) (by simp only [INT_MIN]; omega)
    (by simp only [INT_MAX]; omega) (by omega)
  have e2 := rsc_value_eq hF (r := -r) (d := d) (by simp only [INT_MIN]; omega)
    (by simp only [INT_MAX]; omega) (by simp only [INT_MIN]; omega)
    (by simp only [INT_MAX]; omega) (by omega)
  refine ⟨_, e1, ?_⟩
  rw [e2]
  congr 1
  rw [Int.cast_neg, neg_div, hF.neg, neg_mul, hF.neg, c_round_neg, neg_div, hF.neg]

/-- C10 at the base offset 1 and the divisor 8. -/
theorem rsc_value_odd_witness :
    (2 : Int) ≤ 8 ∧ (8 : Int) ≤ 12 ∧ (-65536 : Int) ≤ 1 ∧ (1 : Int) ≤ 65536 ∧
    ∃ v : ℚ, rsc_value exactArith 1 8 = some v ∧ rsc_value exactArith (-1) 8 = some (-v) :=
  ⟨by decide, by decide, by decide, by decide,
    rsc_value_odd exactArith exactArith_sound 1 8 (by decide) (by decide) (by decide)
      (by decide)⟩

/-! ### The draws: base offset and divisor -/

/-- C7, as the claim states it, fails: with `RAND_MAX = 32767`, the least value the C
standard allows and the one of the standard's sample `rand`, no output of the source in
`0 .. RAND_MAX` has the base offset 0. -/
theorem rsc_base_not_onto :
    ¬ ∃ b : Int, 0 ≤ b ∧ b ≤ Libc.sample.RAND_MAX ∧ rsc_base b = some 0 := by
  rintro ⟨b, h0, h1, h2⟩
  have h3 : b ≤ 32767 := h1
  rw [rsc_base_eq h0, Option.some_inj] at h2
  omega

/-- C7, amended. For every output `b` of the pseudo-random source in `0 .. RAND_MAX` the
base offset `min + b % (max - min + 1)` is computed and lies in `[-65536, 65536]`; and each
of the 131073 integers of that interval is the base offset of some output in
`0 .. RAND_MAX` exactly when `RAND_MAX` is at least 131072. -/
theorem rsc_base_range (RAND_MAX : Int) :
    (∀ b : Int, 0 ≤ b → b ≤ RAND_MAX →
      ∃ r : Int, rsc_base b = some r ∧ -65536 ≤ r ∧ r ≤ 65536) ∧
    ((∀ r : Int, -65536 ≤ r → r ≤ 65536 →
      ∃ b : Int, 0 ≤ b ∧ b ≤ RAND_MAX ∧ rsc_base b = some r) ↔ 131072 ≤ RAND_MAX) := by
  constructor
  · intro b hb _
    have h := abs_le.mp (base_abs_le b)
    exact ⟨_, rsc_base_eq hb, h.1, h.2⟩
  · constructor
    · intro h
      obtain ⟨b, h0, h1, h2⟩ := h 65536 (by decide) (by decide)
      rw [rsc_base_eq h0, Option.some_inj] at h2
      omega
    · intro h r hr1 hr2
      refine ⟨r + 65536, by omega, by omega, ?_⟩
      rw [rsc_base_eq (by omega), Option.some_inj]
      omega

/-- The raw outputs that give the divisor `d` are those congruent to `d - 2` modulo 11. -/
theorem rsc_divisor_eq_iff (a : Nat) (d : Int) (hd1 : 2 ≤ d) (hd2 : d ≤ 12) :
    rsc_divisor (a : Int) = some d ↔ a ≡ (d - 2).toNat [MOD 11] := by
  rw [rsc_divisor_eq (Int.ofNat_nonneg a), Option.some_inj]
  have h1 : ((a % 11 : Nat) : Int) = (a : Int) % 11 := by norm_cast
  have h2 : a % 11 < 11 := Nat.mod_lt _ (by norm_num)
  have h3 : (d - 2).toNat % 11 = (d - 2).toNat := Nat.mod_eq_of_lt (by omega)
  unfold Nat.ModEq
  rw [h3]
  constructor
  · intro h; omega
  · intro h; omega

/-- The count of raw outputs in `0 .. RAND_MAX` giving the divisor `d`. -/
theorem divisor_count_eq (RAND_MAX : Nat) (d : Int) (hd1 : 2 ≤ d) (hd2 : d ≤ 12) :
    divisor_count RAND_MAX d =
      (RAND_MAX + 1) / 11 + if (d - 2).toNat < (RAND_MAX + 1) % 11 then 1 else 0 := by
  have h := Nat.count_modEq_card (RAND_MAX + 1) (by norm_num : 0 < 11) (d - 2).toNat
  have h3 : (d - 2).toNat % 11 = (d - 2).toNat := Nat.mod_eq_of_lt (by omega)
  rw [h3, Nat.count_eq_card_filter_range] at h
  rw [← h]
  unfold divisor_count
  congr 1
  apply Finset.filter_congr
  intro a _
  exact rsc_divisor_eq_iff a d hd1 hd2

/-- C8, as the claim states it, fails: with `RAND_MAX = 2147483647` the divisor 2 is
produced by one raw output more than the divisor 12, and with `RAND_MAX = 32767` the
divisor 11 is produced by one raw output more than the divisor 12. -/
theorem divisor_not_uniform :
    divisor_count 2147483647 2 ≠ divisor_count 2147483647 12 ∧
    divisor_count 2147483647 2 = 195225787 ∧ divisor_count 2147483647 12 = 195225786 ∧
    divisor_count 32767 11 ≠ divisor_count 32767 12 ∧
    divisor_count 32767 11 = 2979 ∧ divisor_count 32767 12 = 2978 := by
  refine ⟨?_, ?_, ?_, ?_, ?_, ?_⟩ <;>
  · simp only [divisor_count_eq _ _ (by decide : (2 : Int) ≤ 2) (by decide : (2 : Int) ≤ 12),
      divisor_count_eq _ _ (by decide : (2 : Int) ≤ 12) (by decide : (12 : Int) ≤ 12),
      divisor_count_eq _ _ (by decide : (2 : Int) ≤ 11) (by decide : (11 : Int) ≤ 12)]
    decide

/-- C8, amended. `rsc_rand` never produces a divisor outside `2 .. 12`, and the divisor is
uniform up to one raw output: of the `RAND_MAX + 1` raw outputs, each divisor `d` in
`2 .. 12` is produced by `(RAND_MAX + 1) / 11` of them, and by one more when
`d - 2 < (RAND_MAX + 1) % 11`; all eleven counts are equal exactly when 11 divides
`RAND_MAX + 1`. -/
theorem divisor_nearly_uniform (RAND_MAX : Nat) :
    (∀ a : Int, 0 ≤ a → ∃ d : Int, rsc_divisor a = some d ∧ 2 ≤ d ∧ d ≤ 12) ∧
    (∀ d : Int, 2 ≤ d → d ≤ 12 → divisor_count RAND_MAX d =
      (RAND_MAX + 1) / 11 + if (d - 2).toNat < (RAND_MAX + 1) % 11 then 1 else 0) ∧
    ((∀ d d' : Int, 2 ≤ d → d ≤ 12 → 2 ≤ d' → d' ≤ 12 →
      divisor_count RAND_MAX d = divisor_count RAND_MAX d') ↔ 11 ∣ RAND_MAX + 1) := by
  refine ⟨fun a ha => ⟨_, rsc_divisor_eq ha, ?_, ?_⟩, fun d h1 h2 => divisor_count_eq _ d h1 h2,
    ?_⟩
  · have := Int.emod_nonneg a (by norm_num : (11 : Int) ≠ 0)
    omega
  · have := Int.emod_lt_of_pos a (by norm_num : (0 : Int) < 11)
    omega
  · constructor
    · intro h
      have h1 := h 2 12 (by decide) (by decide) (by decide) (by decide)
      rw [divisor_count_eq _ _ (by decide) (by decide),
        divisor_count_eq _ _ (by decide) (by decide)] at h1
      have h2 : (RAND_MAX + 1) % 11 < 11 := Nat.mod_lt _ (by norm_num)
      have e1 : ((2 : Int) - 2).toNat = 0 := by decide
      have e2 : ((12 : Int) - 2).toNat = 10 := by decide
      rw [e1, e2] at h1
      have h3 : ¬ (10 < (RAND_MAX + 1) % 11) := by omega
      rw [if_neg h3] at h1
      apply Nat.dvd_of_mod_eq_zero
      by_contra hne
      rw [if_pos (by omega)] at h1
      omega
    · intro h d d' h1 h2 h3 h4
      have h0 : (RAND_MAX + 1) % 11 = 0 := Nat.mod_eq_zero_of_dvd h
      rw [divisor_count_eq _ _ h1 h2, divisor_count_eq _ _ h3 h4, h0]
      simp

/-! ### `rsc_init` and the sequence of values -/

theorem rand_outputs_nonneg (L : Libc) (n : Nat) (g : L.Rng) :
    ∀ x ∈ rand_outputs L.rand n g, 0 ≤ x := by
  induction n generalizing g with
  | zero => intro x hx; simp [rand_outputs] at hx
  | succ n ih =>
    intro x hx
    simp only [rand_outputs, List.mem_cons] at hx
    rcases hx with rfl | hx
    · exact L.rand_nonneg g
    · exact ih _ x hx

/-- One call of `rsc_rand` returns the value of the next two outputs of the source. -/
theorem rsc_rand_eq (L : Libc) {F : DoubleModel} (hF : F.Sound) (w : World L) :
    rsc_rand L F w =
      some ((rsc_rand_calc F (L.rand w.rng).1 (L.rand (L.rand w.rng).2).1).getD 0,
        { w with rng := (L.rand (L.rand w.rng).2).2 }) := by
  obtain ⟨v, hv, _⟩ := rsc_rand_calc_bounds hF _ _ (L.rand_nonneg w.rng)
    (L.rand_nonneg (L.rand w.rng).2)
  simp only [rsc_rand, hv, Option.map_some', Option.getD_some]

/-- Successive calls of `rsc_rand` always return, and the values returned are those of the
next outputs of the source, taken two at a time. -/
theorem rsc_rand_calls_eq (L : Libc) {F : DoubleModel} (hF : F.Sound) (n : Nat)
    (w : World L) :
    ∃ u : World L, rsc_rand_calls L F n w =
      some (values_of F (rand_outputs L.rand (2 * n) w.rng), u) := by
  induction n generalizing w with
  | zero => exact ⟨w, rfl⟩
  | succ n ih =>
    obtain ⟨u, hu⟩ := ih { w with rng := (L.rand (L.rand w.rng).2).2 }
    refine ⟨u, ?_⟩
    have e : 2 * (n + 1) = (2 * n + 1) + 1 := by ring
    rw [e]
    simp only [rsc_rand_calls, rsc_rand_eq L hF, hu, rand_outputs, values_of,
      Option.bind_eq_bind, Option.some_bind, Option.pure_def]

theorem values_of_length (F : DoubleModel) (L : Libc) (n : Nat) (g : L.Rng) :
    (values_of F (rand_outputs L.rand (2 * n) g)).length = n := by
  induction n generalizing g with
  | zero => rfl
  | succ n ih =>
    have e : 2 * (n + 1) = (2 * n + 1) + 1 := by ring
    rw [e]
    simp only [rand_outputs, values_of, List.length_cons, ih]

theorem values_of_mem {F : DoubleModel} (hF : F.Sound) (l : List Int)
    (hl : ∀ x ∈ l, 0 ≤ x) :
    ∀ v ∈ values_of F l, ∃ a b : Int, 0 ≤ a ∧ 0 ≤ b ∧ rsc_rand_calc F a b = some v := by
  induction l using values_of.induct F with
  | case1 a b rest ih =>
    intro v hv
    simp only [values_of, List.mem_cons] at hv
    have ha : 0 ≤ a := hl a (by simp)
    have hb : 0 ≤ b := hl b (by simp)
    rcases hv with rfl | hv
    · obtain ⟨v, hv, _⟩ := rsc_rand_calc_bounds hF a b ha hb
      exact ⟨a, b, ha, hb, by rw [hv]; rfl⟩
    · exact ih (fun x hx => hl x (by simp [hx])) v hv
  | case2 l hne =>
    intro v hv
    rw [values_of] at hv
    · simp at hv
    · exact hne

/-- C9. Re-invoking `rsc_init` resets the sequence basis: from any two prior states `w1`,
`w2` of the process, after `rsc_init` runs at the clock reading `t`, any number `n` of
following `rsc_rand` calls return, and return the same `n` values in both runs; and after
`rsc_init` has run twice in succession (at the readings `t0`, then `t`) every following
`rsc_rand` call returns a value within `[-32768, 32768]` that, in exact arithmetic, has at
most two decimal digits. -/
theorem rsc_init_resets_sequence (L : Libc) (F : DoubleModel) (hF : F.Sound)
    (w1 w2 : World L) (t : Int) (n : Nat) :
    (∃ (vs : List ℚ) (u1 u2 : World L),
      rsc_rand_calls L F n (rsc_init L t w1) = some (vs, u1) ∧
      rsc_rand_calls L F n (rsc_init L t w2) = some (vs, u2) ∧ vs.length = n) ∧
    (∀ t0 : Int, ∃ (vs : List ℚ) (u : World L),
      rsc_rand_calls L exactArith n (rsc_init L t (rsc_init L t0 w1)) = some (vs, u) ∧
      vs.length = n ∧
      ∀ v ∈ vs, -32768 ≤ v ∧ v ≤ 32768 ∧ ∃ k : Int, 100 * v = (k : ℚ)) := by
  constructor
  · obtain ⟨u1, h1⟩ := rsc_rand_calls_eq L hF n (rsc_init L t w1)
    obtain ⟨u2, h2⟩ := rsc_rand_calls_eq L hF n (rsc_init L t w2)
    refine ⟨_, u1, u2, h1, ?_, values_of_length F L n _⟩
    rw [h2]
    simp only [rsc_init, L.srand_repeat _ w2.rng w1.rng]
  · intro t0
    obtain ⟨u, h⟩ := rsc_rand_calls_eq L exactArith_sound n (rsc_init L t (rsc_init L t0 w1))
    refine ⟨_, u, h, values_of_length _ L n _, fun v hv => ?_⟩
    obtain ⟨a, b, ha, hb, hab⟩ :=
      values_of_mem exactArith_sound _ (rand_outputs_nonneg L _ _) v hv
    obtain ⟨v1, hv1, hlo, hhi⟩ := rsc_rand_calc_bounds exactArith_sound a b ha hb
    have e : v1 = v := by
      rw [hab] at hv1
      exact (Option.some_inj.mp hv1).symm
    subst e
    refine ⟨hlo, hhi, ?_⟩
    rw [rsc_rand_calc_exact a b ha hb, Option.some_inj] at hab
    rw [← hab]
    exact rsc_rand_spec_two_decimals a b

/-- C9 on the sample `rand` of the C standard in binary64 arithmetic: three values after
`rsc_init` at the clock reading 1700000000, from the prior states 1 and 99 of the source. -/
theorem rsc_init_resets_sequence_witness :
    ∃ (vs : List ℚ) (u1 u2 : World Libc.sample),
      rsc_rand_calls Libc.sample binary64 3 (rsc_init Libc.sample 1700000000 ⟨(1 : Nat), [], []⟩) =
        some (vs, u1) ∧
      rsc_rand_calls Libc.sample binary64 3 (rsc_init Libc.sample 1700000000 ⟨(99 : Nat), [], []⟩) =
        some (vs, u2) ∧ vs.length = 3 :=
  (rsc_init_resets_sequence Libc.sample binary64 binary64_sound ⟨(1 : Nat), [], []⟩
    ⟨(99 : Nat), [], []⟩ 1700000000 3).1

/-! ### `rsc_out` -/

theorem digit_char_isDigit {n : Nat} (h : n < 10) : (digit_char n).isDigit = true := by
  interval_cases n <;> decide

theorem digit_value_digit_char {n : Nat} (h : n < 10) : digit_value (digit_char n) = n := by
  interval_cases n <;> decide

theorem decimal_value_append (ds : List Char) (c : Char) :
    decimal_value (ds ++ [c]) = 10 * decimal_value ds + digit_value c := by
  simp [decimal_value, List.foldl_append]

/-- With enough fuel the digits put before `acc` form a non-empty numeral of `n`. -/
theorem decimal_digits_aux_spec (fuel n : Nat) (acc : List Char) (h : n < fuel) :
    ∃ ds : List Char, decimal_digits_aux fuel n acc = ds ++ acc ∧ ds ≠ [] ∧
      (∀ c ∈ ds, c.isDigit = true) ∧ decimal_value ds = n := by
  induction fuel generalizing n acc with
  | zero => omega
  | succ fuel ih =>
    by_cases hn : n < 10
    · refine ⟨[digit_char n], ?_, by simp, ?_, ?_⟩
      · simp [decimal_digits_aux, hn]
      · intro c hc
        rw [List.mem_singleton] at hc
        rw [hc]
        exact digit_char_isDigit hn
      · simp [decimal_value, digit_value_digit_char hn]
    · have h1 : n / 10 < fuel := by omega
      have h2 : n % 10 < 10 := Nat.mod_lt _ (by norm_num)
      obtain ⟨ds, e, hne, hd, hv⟩ := ih (n / 10) (digit_char (n % 10) :: acc) h1
      refine ⟨ds ++ [digit_char (n % 10)], ?_, by simp, ?_, ?_⟩
      · simp [decimal_digits_aux, hn, e]
      · intro c hc
        rw [List.mem_append, List.mem_singleton] at hc
        rcases hc with hc | hc
        · exact hd c hc
        · rw [hc]
          exact digit_char_isDigit h2
      · rw [decimal_value_append, hv, digit_value_digit_char h2]
        omega

theorem decimal_digits_spec (n : Nat) :
    decimal_digits n ≠ [] ∧ (∀ c ∈ decimal_digits n, c.isDigit = true) ∧
      decimal_value (decimal_digits n) = n := by
  obtain ⟨ds, e, hne, hd, hv⟩ := decimal_digits_aux_spec (n + 1) n [] (by omega)
  rw [List.append_nil] at e
  unfold decimal_digits
  rw [e]
  exact ⟨hne, hd, hv⟩

/-- C5. For every finite `double` `x` (a finite number `q`, or the negative zero),
`rsc_out` appends to standard output the decimal rendering of `x` with exactly two digits
after the point, then one line break and nothing else: an optional minus sign (present
exactly when `q < 0`), a non-empty run of digits, a point and two digits, the number written
being within half a hundredth of `|q|`; the negative zero prints as `-0.00`; and for
`x = 3.14159`, taken exactly or rounded to a `double`, the output is exactly `"3.14\n"`. -/
theorem rsc_out_format (L : Libc) (w : World L) (q : ℚ) :
    (∃ (ip : List Char) (d1 d2 : Char),
      rsc_out L (CDouble.finite q) w =
        { w with stdout := w.stdout ++
          ((if q < 0 then ['-'] else []) ++ ip ++ ['.', d1, d2] ++ ['\n']) } ∧
      ip ≠ [] ∧ (∀ c ∈ ip, c.isDigit = true) ∧ d1.isDigit = true ∧ d2.isDigit = true ∧
      abs ((decimal_value ip : ℚ) + (digit_value d1 : ℚ) / 10 + (digit_value d2 : ℚ) / 100 -
        abs q) ≤ 1 / 200) ∧
    rsc_out L CDouble.neg_zero w = { w with stdout := w.stdout ++ "-0.00\n".toList } ∧
    rsc_out L (CDouble.finite (314159 / 100000)) w =
      { w with stdout := w.stdout ++ "3.14\n".toList } ∧
    (∀ F : DoubleModel, F.Sound →
      rsc_out L (CDouble.finite (F.rnd (314159 / 100000))) w =
        { w with stdout := w.stdout ++ "3.14\n".toList }) := by
  refine ⟨?_, rfl, ?_, ?_⟩
  · obtain ⟨hne, hd, hv⟩ := decimal_digits_spec ((round_half_even (|q| * 100)).toNat / 100)
    have h1 : (round_half_even (|q| * 100)).toNat / 10 % 10 < 10 := Nat.mod_lt _ (by norm_num)
    have h2 : (round_half_even (|q| * 100)).toNat % 10 < 10 := Nat.mod_lt _ (by norm_num)
    refine ⟨_, _, _, ?_, hne, hd, digit_char_isDigit h1, digit_char_isDigit h2, ?_⟩
    · simp only [rsc_out, fmt_2f, List.append_assoc]
    · rw [hv, digit_value_digit_char h1, digit_value_digit_char h2]
      have h3 := round_half_even_near (|q| * 100)
      have h4 := round_half_even_nonneg (mul_nonneg (abs_nonneg q) (by norm_num : (0 : ℚ) ≤ 100))
      have h5 : (((round_half_even (|q| * 100)).toNat : Int) : ℚ) =
          (round_half_even (|q| * 100) : ℚ) := by
        rw [Int.toNat_of_nonneg h4]
      generalize (round_half_even (|q| * 100)).toNat = n at h5 ⊢
      have h6 : ((n / 100 : Nat) : ℚ) + ((n / 10 % 10 : Nat) : ℚ) / 10 +
          ((n % 10 : Nat) : ℚ) / 100 = (n : ℚ) / 100 := by
        have e : n = 100 * (n / 100) + 10 * (n / 10 % 10) + n % 10 := by omega
        have e1 : (n : ℚ) = 100 * ((n / 100 : Nat) : ℚ) + 10 * ((n / 10 % 10 : Nat) : ℚ) +
            ((n % 10 : Nat) : ℚ) := by exact_mod_cast e
        rw [e1]
        ring
      rw [h6]
      have h7 : ((n : Int) : ℚ) = (n : ℚ) := by norm_cast
      rw [← h7, h5]
      rw [abs_le] at h3 ⊢
      constructor <;> linarith [h3.1, h3.2]
  · have h : round_half_even (|(314159 / 100000 : ℚ)| * 100) = 314 := by
      norm_num [round_half_even, abs_of_nonneg]
    simp only [rsc_out, fmt_2f, h]
    norm_num
    decide
  · intro F hF
    have he := hF.error (314159 / 100000)
    rw [abs_of_pos (by norm_num : (0 : ℚ) < 314159 / 100000), abs_le] at he
    have e1 : (314159 : ℚ) / 100000 / 2 ^ 53 ≤ 1 / 1000 := by norm_num
    have hpos : 0 < F.rnd (314159 / 100000) := by linarith [he.1]
    have h : round_half_even (|F.rnd (314159 / 100000)| * 100) = 314 := by
      apply round_half_even_eq_of_near
      rw [abs_of_pos hpos, abs_lt]
      push_cast
      constructor <;> linarith [he.1, he.2]
    simp only [rsc_out, fmt_2f, h, if_neg (not_lt.mpr (le_of_lt hpos))]
    norm_num
    decide

/-! ### The conversion of `strtod` -/

theorem two_pow_eq (e : Int) : two_pow e = (2 : ℚ) ^ e := by
  unfold two_pow
  split_ifs with h
  · obtain ⟨n, rfl⟩ := Int.eq_ofNat_of_zero_le h
    simp
  · push_neg at h
    obtain ⟨n, hn⟩ := Int.eq_ofNat_of_zero_le (by omega : 0 ≤ -e)
    have he : e = -(n : Int) := by omega
    rw [hn, he]
    simp

theorem abs_eq_natAbs_div_den (q : ℚ) : |q| = (q.num.natAbs : ℚ) / (q.den : ℚ) := by
  have h := Rat.num_div_den q
  have hd : (0 : ℚ) < (q.den : ℚ) := by exact_mod_cast q.den_pos
  conv_lhs => rw [← h]
  rw [abs_div, abs_of_pos hd]
  congr 1
  rw [Nat.cast_natAbs, Int.cast_abs]

theorem binade_spec {q : ℚ} (hq : q ≠ 0) :
    (2 : ℚ) ^ binade q ≤ |q| ∧ |q| < (2 : ℚ) ^ (binade q + 1) := by
  have hN : q.num.natAbs ≠ 0 := by
    rw [Ne, Int.natAbs_eq_zero]
    exact Rat.num_ne_zero.mpr hq
  have hD : q.den ≠ 0 := q.den_nz
  have n1 : (2 : ℚ) ^ (q.num.natAbs.log2 : Int) ≤ (q.num.natAbs : ℚ) := by
    rw [zpow_natCast]
    exact_mod_cast Nat.log2_self_le hN
  have n2 : (q.num.natAbs : ℚ) < (2 : ℚ) ^ ((q.num.natAbs.log2 : Int) + 1) := by
    have := @Nat.lt_log2_self q.num.natAbs
    have e : ((q.num.natAbs.log2 : Int) + 1) = ((q.num.natAbs.log2 + 1 : Nat) : Int) := by
      push_cast; rfl
    rw [e, zpow_natCast]
    exact_mod_cast this
  have d1 : (2 : ℚ) ^ (q.den.log2 : Int) ≤ (q.den : ℚ) := by
    rw [zpow_natCast]
    exact_mod_cast Nat.log2_self_le hD
  have d2 : (q.den : ℚ) < (2 : ℚ) ^ ((q.den.log2 : Int) + 1) := by
    have := @Nat.lt_log2_self q.den
    have e : ((q.den.log2 : Int) + 1) = ((q.den.log2 + 1 : Nat) : Int) := by
      push_cast; rfl
    rw [e, zpow_natCast]
    exact_mod_cast this
  have hd : (0 : ℚ) < (q.den : ℚ) := by exact_mod_cast q.den_pos
  have habs := abs_eq_natAbs_div_den q
  unfold binade
  simp only [two_pow_eq]
  generalize (q.num.natAbs.log2 : Int) = a at n1 n2 ⊢
  generalize (q.den.log2 : Int) = b at d1 d2 ⊢
  have pa : (0 : ℚ) < 2 ^ b := zpow_pos (by norm_num) b
  -- `2 ^ (a - b - 1) < |q| < 2 ^ (a - b + 1)`
  have lo : (2 : ℚ) ^ (a - b - 1) < |q| := by
    rw [habs, lt_div_iff₀ hd]
    have e : (2 : ℚ) ^ (a - b - 1) * 2 ^ (b + 1) = 2 ^ a := by
      rw [← zpow_add₀ (by norm_num)]
      congr 1
      ring
    have p1 : (0 : ℚ) < 2 ^ (a - b - 1) := zpow_pos (by norm_num) _
    calc (2 : ℚ) ^ (a - b - 1) * (q.den : ℚ) < 2 ^ (a - b - 1) * 2 ^ (b + 1) :=
          mul_lt_mul_of_pos_left d2 p1
      _ = 2 ^ a := e
      _ ≤ _ := n1
  have hi : |q| < (2 : ℚ) ^ (a - b + 1) := by
    rw [habs, div_lt_iff₀ hd]
    have e : (2 : ℚ) ^ (a - b + 1) * 2 ^ b = 2 ^ (a + 1) := by
      rw [← zpow_add₀ (by norm_num)]
      congr 1
      ring
    have p1 : (0 : ℚ) < 2 ^ (a - b + 1) := zpow_pos (by norm_num) _
    calc (q.num.natAbs : ℚ) < 2 ^ (a + 1) := n2
      _ = 2 ^ (a - b + 1) * 2 ^ b := e.symm
      _ ≤ 2 ^ (a - b + 1) * (q.den : ℚ) := mul_le_mul_of_nonneg_left d1 (le_of_lt p1)
  split_ifs with h
  · exact ⟨h, hi⟩
  · push_neg at h
    refine ⟨le_of_lt lo, ?_⟩
    have : a - b - 1 + 1 = a - b := by ring
    rw [this]
    exact h

/-- The binade is determined by its bounds. -/
theorem binade_eq {q : ℚ} (e : Int) (h1 : (2 : ℚ) ^ e ≤ |q|) (h2 : |q| < (2 : ℚ) ^ (e + 1)) :
    binade q = e := by
  have hpos : 0 < |q| := lt_of_lt_of_le (zpow_pos (by norm_num) e) h1
  obtain ⟨b1, b2⟩ := binade_spec (abs_pos.mp hpos)
  have l1 : (2 : ℚ) ^ e < 2 ^ (binade q + 1) := lt_of_le_of_lt h1 b2
  have l2 : (2 : ℚ) ^ binade q < 2 ^ (e + 1) := lt_of_le_of_lt b1 h2
  have m1 := (zpow_lt_zpow_iff_right₀ (by norm_num : (1 : ℚ) < 2)).mp l1
  have m2 := (zpow_lt_zpow_iff_right₀ (by norm_num : (1 : ℚ) < 2)).mp l2
  omega

/-- A number of the binary64 format, `m * 2 ^ (e - 52)` in the binade `e` of the normal
range, is converted to itself. -/
theorem strtod_round_exact (neg : Bool) {q : ℚ} (e m : Int) (he1 : -1022 ≤ e) (he2 : e ≤ 1023)
    (h1 : (2 : ℚ) ^ e ≤ q) (h2 : q < (2 : ℚ) ^ (e + 1)) (hm : q = (m : ℚ) * 2 ^ (e - 52)) :
    strtod_round neg q = CDouble.finite (if neg then -q else q) := by
  have hpos : 0 < q := lt_of_lt_of_le (zpow_pos (by norm_num) e) h1
  have hb : binade q = e := binade_eq e (by rwa [abs_of_pos hpos]) (by rwa [abs_of_pos hpos])
  have hu : (0 : ℚ) < 2 ^ (e - 52) := zpow_pos (by norm_num) _
  have hdiv : q / 2 ^ (e - 52) = (m : ℚ) := by
    rw [hm]
    field_simp
  have htop : ¬ (2 : ℚ) ^ (1024 : Int) ≤ q := by
    have : (2 : ℚ) ^ (e + 1) ≤ 2 ^ (1024 : Int) :=
      zpow_le_zpow_right₀ (by norm_num) (by omega)
    intro hc
    linarith
  simp only [strtod_round, if_neg (ne_of_gt hpos), hb, if_neg (not_lt.mpr he1), two_pow_eq,
    hdiv, round_half_even_int, ← hm, if_neg htop, if_neg (ne_of_gt hpos)]

/-! ### Reading a number -/

/-- When the reading stops before the end of the input, what follows the place where it
stopped plays no part. -/
theorem scan_item_append (l t : List Char) (s : Scan) (h : (scan_item s l).2 ≠ []) :
    scan_item s (l ++ t) = ((scan_item s l).1, (scan_item s l).2 ++ t) := by
  induction l generalizing s with
  | nil => simp [scan_item] at h
  | cons c cs ih =>
    cases hs : step s c with
    | more s1 =>
      simp only [scan_item, hs, List.cons_append] at h ⊢
      exact ih s1 h
    | unread => simp [scan_item, hs]
    | taken_err => simp [scan_item, hs]
    | taken_done s1 => simp [scan_item, hs]

theorem scan_item_suffix (l : List Char) (s : Scan) : (scan_item s l).2 <:+ l := by
  induction l generalizing s with
  | nil => simp [scan_item]
  | cons c cs ih =>
    cases hs : step s c with
    | more s1 =>
      simp only [scan_item, hs]
      exact (ih s1).trans (List.suffix_cons c cs)
    | unread => simp [scan_item, hs]
    | taken_err =>
      simp only [scan_item, hs]
      exact List.suffix_cons c cs
    | taken_done s1 =>
      simp only [scan_item, hs]
      exact List.suffix_cons c cs

theorem dropWhile_append_of_ne_nil (p : Char → Bool) (l m : List Char)
    (h : l.dropWhile p ≠ []) : (l ++ m).dropWhile p = l.dropWhile p ++ m := by
  induction l with
  | nil => simp at h
  | cons c cs ih =>
    by_cases hc : p c = true
    · simp only [List.cons_append, List.dropWhile_cons, hc, if_true] at h ⊢
      exact ih h
    · simp [List.dropWhile_cons, hc]

/-- The three results of `scanf` in terms of the reading of the item. -/
theorem scanf_lf_cons {input : List Char} {c : Char} {cs : List Char}
    (h : input.dropWhile isspace = c :: cs) :
    scanf_lf input =
      match (scan_item Scan.init (c :: cs)).1.bind scan_value with
      | some v => ⟨1, some v, (scan_item Scan.init (c :: cs)).2⟩
      | none => ⟨0, none, (scan_item Scan.init (c :: cs)).2⟩ := by
  simp only [scanf_lf, h]

theorem scanf_lf_rest_suffix (input : List Char) : (scanf_lf input).rest <:+ input := by
  cases h : input.dropWhile isspace with
  | nil => simp [scanf_lf, h]
  | cons c cs =>
    have h1 := List.dropWhile_suffix (l := input) isspace
    rw [h] at h1
    have h2 := scan_item_suffix (c :: cs) Scan.init
    rw [scanf_lf_cons h]
    cases (scan_item Scan.init (c :: cs)).1.bind scan_value <;> exact h2.trans h1

/-- A call that stores nothing returns 0 or `EOF`, and the other way round. -/
theorem scanf_lf_val_none {input : List Char} (h : (scanf_lf input).ret ≠ 1) :
    (scanf_lf input).val = none := by
  cases hd : input.dropWhile isspace with
  | nil => simp [scanf_lf, hd]
  | cons c cs =>
    rw [scanf_lf_cons hd] at h ⊢
    cases hv : (scan_item Scan.init (c :: cs)).1.bind scan_value with
    | none => rfl
    | some v => simp [hv] at h

/-- When `scanf` leaves some of the input unread, what follows that input plays no part in
the call. -/
theorem scanf_lf_append (l t : List Char) (h : (scanf_lf l).rest ≠ []) :
    scanf_lf (l ++ t) = ⟨(scanf_lf l).ret, (scanf_lf l).val, (scanf_lf l).rest ++ t⟩ := by
  cases hd : l.dropWhile isspace with
  | nil => simp [scanf_lf, hd] at h
  | cons c cs =>
    have hd2 : (l ++ t).dropWhile isspace = c :: (cs ++ t) := by
      rw [dropWhile_append_of_ne_nil _ _ _ (by rw [hd]; simp), hd]
      rfl
    rw [scanf_lf_cons hd] at h ⊢
    rw [scanf_lf_cons hd2]
    have hr : (scan_item Scan.init (c :: cs)).2 ≠ [] := by
      cases hv : (scan_item Scan.init (c :: cs)).1.bind scan_value <;> simpa [hv] using h
    have ha := scan_item_append (c :: cs) t Scan.init hr
    rw [List.cons_append] at ha
    rw [ha]
    cases hv : (scan_item Scan.init (c :: cs)).1.bind scan_value <;> rfl

theorem discard_line_append (l more : List Char) (h : '\n' ∉ l) :
    discard_line (l ++ '\n' :: more) = some more := by
  induction l with
  | nil => simp [discard_line]
  | cons c cs ih =>
    have hc : c ≠ '\n' := fun e => h (by simp [e])
    have hcs : '\n' ∉ cs := fun e => h (by simp [e])
    simp [discard_line, hc, ih hcs]

theorem discard_line_length {l r : List Char} (h : discard_line l = some r) :
    r.length < l.length := by
  induction l with
  | nil => simp [discard_line] at h
  | cons c cs ih =>
    by_cases hc : c = '\n'
    · simp only [discard_line, hc, if_true, Option.some.injEq] at h
      rw [← h]
      simp
    · simp only [discard_line, hc, if_false] at h
      have := ih h
      simp only [List.length_cons]
      omega

/-- A non-empty end of a line with its line break is an end of the line, with the line
break. -/
theorem suffix_of_line {r l : List Char} (h : r <:+ l ++ ['\n']) (hr : r ≠ []) :
    ∃ t : List Char, r = t ++ ['\n'] ∧ t <:+ l := by
  obtain ⟨p, hp⟩ := h
  rcases List.eq_nil_or_concat r with h0 | ⟨t, b, hb⟩
  · exact absurd h0 hr
  · rw [hb, List.concat_eq_append, ← List.append_assoc] at hp
    have h1 := List.append_inj' hp rfl
    have hb2 : b = '\n' := by simpa using h1.2
    exact ⟨t, by rw [hb, List.concat_eq_append, hb2], ⟨p, h1.1⟩⟩

/-! ### The loop of `rsc_input` -/

/-- A round in which `scanf` does not return 1 and a line break follows: the prompt and
the diagnostic are printed, the input up to that line break is discarded, `val` is kept. -/
theorem rsc_input_loop_retry (L : Libc) (fuel : Nat) (val : CDouble) (w : World L)
    (rest : List Char) (hr : (scanf_lf w.stdin).ret ≠ 1)
    (hd : discard_line (scanf_lf w.stdin).rest = some rest) :
    rsc_input_loop L (fuel + 1) val w =
      rsc_input_loop L fuel val
        { w with stdin := rest,
                 stdout := w.stdout ++
                   ("Input: ".toList ++ "Invalid entry, try again.\n".toList) } := by
  simp only [rsc_input_loop, hr, hd, scanf_lf_val_none hr, Option.getD_none,
    List.append_assoc, ne_eq, not_false_eq_true, if_true]

/-- A round in which `scanf` does not return 1 and no line break follows: the inner loop
never ends. -/
theorem rsc_input_loop_stuck (L : Libc) (fuel : Nat) (val : CDouble) (w : World L)
    (hr : (scanf_lf w.stdin).ret ≠ 1) (hd : discard_line (scanf_lf w.stdin).rest = none) :
    rsc_input_loop L (fuel + 1) val w = none := by
  simp only [rsc_input_loop, hr, hd, ne_eq, not_false_eq_true, if_true]

/-- A round in which `scanf` returns 1: the prompt is printed and the value stored is
returned. -/
theorem rsc_input_loop_return (L : Libc) (fuel : Nat) (val : CDouble) (w : World L)
    (x : CDouble) (rest : List Char) (h : scanf_lf w.stdin = ⟨1, some x, rest⟩) :
    rsc_input_loop L (fuel + 1) val w =
      some (x, { w with stdin := rest, stdout := w.stdout ++ "Input: ".toList }) := by
  simp only [rsc_input_loop, h, Option.getD_some, ne_eq, not_true_eq_false, if_false]

/-- More rounds than the input has characters change nothing: when `rsc_input` has no
result, the loop of `rsc.c` never returns. -/
theorem rsc_input_loop_fuel (L : Libc) (fuel : Nat) :
    ∀ (val : CDouble) (w : World L), w.stdin.length < fuel →
      rsc_input_loop L fuel val w = rsc_input_loop L (w.stdin.length + 1) val w := by
  induction fuel using Nat.strong_induction_on with
  | _ fuel ih =>
    intro val w hlen
    obtain ⟨f, rfl⟩ : ∃ f, fuel = f + 1 := ⟨fuel - 1, by omega⟩
    by_cases hr : (scanf_lf w.stdin).ret = 1
    · simp only [rsc_input_loop, hr, ne_eq, not_true_eq_false, if_false]
    · cases hd : discard_line (scanf_lf w.stdin).rest with
      | none => rw [rsc_input_loop_stuck L f val w hr hd, rsc_input_loop_stuck L _ val w hr hd]
      | some rest =>
        have h1 := discard_line_length hd
        have h2 := (scanf_lf_rest_suffix w.stdin).length_le
        rw [rsc_input_loop_retry L f val w rest hr hd,
          rsc_input_loop_retry L _ val w rest hr hd]
        rw [ih f (by omega) _ _ (by simp only; omega)]
        rw [ih w.stdin.length (by omega) _ _ (by simp only; omega)]

/-- A round of the loop on a line on which `scanf` stores nothing and leaves the line break
unread: the prompt and the diagnostic are printed, the whole line and its line break are
discarded, `val` is kept. -/
theorem rsc_input_loop_invalid (L : Libc) (fuel : Nat) (val : CDouble) (w : World L)
    (l more : List Char) (hl : invalid_line l) (hin : w.stdin = l ++ '\n' :: more) :
    rsc_input_loop L (fuel + 1) val w =
      rsc_input_loop L fuel val
        { w with stdin := more,
                 stdout := w.stdout ++
                   ("Input: ".toList ++ "Invalid entry, try again.\n".toList) } := by
  obtain ⟨hn, hret, hrest⟩ := hl
  have hin2 : w.stdin = (l ++ ['\n']) ++ more := by rw [hin]; simp
  have ha := scanf_lf_append (l ++ ['\n']) more hrest
  obtain ⟨t, ht, hsuf⟩ := suffix_of_line (scanf_lf_rest_suffix (l ++ ['\n'])) hrest
  have hnt : '\n' ∉ t := fun hm => hn (hsuf.subset hm)
  have hr : (scanf_lf w.stdin).ret ≠ 1 := by
    rw [hin2, ha, hret]
    decide
  have hd : discard_line (scanf_lf w.stdin).rest = some more := by
    rw [hin2, ha, ht]
    simp only [List.append_assoc, List.singleton_append]
    exact discard_line_append t more hnt
  exact rsc_input_loop_retry L fuel val w more hr hd

/-- A round of the loop on a line that begins with a number: the prompt is printed and the
number is returned; the rest of the line stays unread. -/
theorem rsc_input_loop_valid (L : Libc) (fuel : Nat) (val : CDouble) (w : World L)
    (l tail more : List Char) (x : CDouble) (hl : valid_line l x tail)
    (hin : w.stdin = l ++ '\n' :: more) :
    rsc_input_loop L (fuel + 1) val w =
      some (x, { w with stdin := tail ++ '\n' :: more,
                        stdout := w.stdout ++ "Input: ".toList }) := by
  obtain ⟨_, hv⟩ := hl
  have hin2 : w.stdin = (l ++ ['\n']) ++ more := by rw [hin]; simp
  have ha := scanf_lf_append (l ++ ['\n']) more (by rw [hv]; simp)
  rw [hv] at ha
  have h : scanf_lf w.stdin = ⟨1, some x, tail ++ '\n' :: more⟩ := by
    rw [hin2, ha]
    simp
  exact rsc_input_loop_return L fuel val w x _ h

theorem lines_text_length (ls : List (List Char)) : ls.length ≤ (lines_text ls).length := by
  induction ls with
  | nil => simp [lines_text]
  | cons l ls ih =>
    simp only [lines_text, List.length_cons, List.length_append]
    omega

/-- The loop on `k` lines on which `scanf` stores nothing and leaves the line break unread,
followed by a line that begins with a number, with more rounds allowed than there are such
lines. -/
theorem rsc_input_loop_lines (L : Libc) (ls : List (List Char))
    (last tail more : List Char) (x : CDouble) (hinv : ∀ l ∈ ls, invalid_line l)
    (hval : valid_line last x tail) (fuel : Nat) (val : CDouble) (w : World L)
    (hf : ls.length < fuel) (hin : w.stdin = lines_text ls ++ (last ++ '\n' :: more)) :
    rsc_input_loop L fuel val w =
      some (x, { w with
        stdin := tail ++ '\n' :: more,
        stdout := w.stdout ++
          ((List.replicate ls.length
              ("Input: ".toList ++ "Invalid entry, try again.\n".toList)).flatten ++
            "Input: ".toList) }) := by
  induction ls generalizing fuel w with
  | nil =>
    obtain ⟨f, rfl⟩ : ∃ f, fuel = f + 1 := ⟨fuel - 1, by simp at hf; omega⟩
    rw [rsc_input_loop_valid L f val w last tail more x hval (by simpa [lines_text] using hin)]
    simp
  | cons l ls ih =>
    obtain ⟨f, rfl⟩ : ∃ f, fuel = f + 1 := ⟨fuel - 1, by simp at hf; omega⟩
    have hl : invalid_line l := hinv l (by simp)
    have hin1 : w.stdin = l ++ '\n' :: (lines_text ls ++ (last ++ '\n' :: more)) := by
      rw [hin]
      simp [lines_text]
    rw [rsc_input_loop_invalid L f val w l _ hl hin1]
    rw [ih (fun l1 h1 => hinv l1 (by simp [h1])) f _ (by simpa using hf) rfl]
    simp [List.replicate_succ]

/-- A line whose first character is not white space and cannot begin a number (it is not a
sign, a digit, a point, or one of the letters `i`, `I`, `n`, `N`) is a line on which `scanf`
stores nothing and leaves the line break unread, whatever follows on the line. -/
theorem invalid_line_of_head (c : Char) (cs : List Char)
    (hsp : isspace c = false) (hc : step Scan.init c = Act.unread) (hn : '\n' ∉ c :: cs) :
    invalid_line (c :: cs) := by
  have h1 : (c :: cs ++ ['\n']).dropWhile isspace = c :: (cs ++ ['\n']) := by
    simp [List.dropWhile_cons, hsp]
  have h2 : scan_item Scan.init (c :: (cs ++ ['\n'])) = (some Scan.init, c :: (cs ++ ['\n'])) := by
    simp only [scan_item, hc]
  have h3 : scanf_lf (c :: cs ++ ['\n']) = ⟨0, none, c :: (cs ++ ['\n'])⟩ := by
    rw [scanf_lf_cons h1, h2]
    rfl
  exact ⟨hn, by rw [h3], by rw [h3]; simp⟩

/-- The line `x 12 3.5` is such a line. -/
theorem invalid_line_of_head_witness : invalid_line "x 12 3.5".toList :=
  invalid_line_of_head 'x' " 12 3.5".toList (by decide) (by decide) (by decide)

/-- A call of `scanf` that reads a number, from the reading of its characters. -/
theorem scanf_lf_stores {input : List Char} {c : Char} {cs rest : List Char} {st : Scan}
    {x : CDouble} (hd : input.dropWhile isspace = c :: cs)
    (hs : scan_item Scan.init (c :: cs) = (some st, rest)) (hv : scan_value st = some x) :
    scanf_lf input = ⟨1, some x, rest⟩ := by
  rw [scanf_lf_cons hd, hs]
  simp only [Option.some_bind, hv]

/-- A whole number from 1 to `2 ^ 53` is converted to itself. -/
theorem strtod_round_nat (neg : Bool) (n : Nat) (h0 : 0 < n) (h : n ≤ 2 ^ 53) :
    strtod_round neg (n : ℚ) = CDouble.finite (if neg then -(n : ℚ) else (n : ℚ)) := by
  have hn : n ≠ 0 := by omega
  have l1 : 2 ^ n.log2 ≤ n := Nat.log2_self_le hn
  have l2 : n < 2 ^ (n.log2 + 1) := Nat.lt_log2_self
  have l3 : n.log2 ≤ 53 := by
    by_contra hc
    push_neg at hc
    have : 2 ^ 54 ≤ 2 ^ n.log2 := Nat.pow_le_pow_right (by norm_num) hc
    omega
  rcases Nat.lt_or_ge n.log2 53 with l4 | l4
  · have e1 : ((52 - n.log2 : Nat) : Int) = 52 - (n.log2 : Int) := by omega
    apply strtod_round_exact neg (n.log2 : Int) ((n * 2 ^ (52 - n.log2) : Nat) : Int)
      (by omega) (by omega)
    · rw [zpow_natCast]
      exact_mod_cast l1
    · have : ((n.log2 : Int) + 1) = ((n.log2 + 1 : Nat) : Int) := by push_cast; rfl
      rw [this, zpow_natCast]
      exact_mod_cast l2
    · have e2 : ((n.log2 : Int) - 52) = -((52 - n.log2 : Nat) : Int) := by omega
      rw [e2, zpow_neg, zpow_natCast]
      push_cast
      field_simp
  · have e53 : n.log2 = 53 := by omega
    have hn53 : n = 2 ^ 53 := by
      rw [e53] at l1
      omega
    apply strtod_round_exact neg 53 (2 ^ 52) (by norm_num) (by norm_num)
    · rw [hn53]
      norm_num
    · rw [hn53]
      norm_num
    · rw [hn53]
      norm_num

/-- The value of a whole decimal number without point or exponent, from 1 to `2 ^ 53`. -/
theorem scan_value_whole (neg got_dot got_e last_exp eneg : Bool) (n exp : Nat) (h0 : 0 < n)
    (h : n ≤ 2 ^ 53) :
    scan_value ⟨Phase.num, neg, false, true, got_dot, got_e, last_exp, n, 0, eneg, exp, false⟩ =
      some (CDouble.finite (if neg then -(n : ℚ) else (n : ℚ))) := by
  have hm : scan_magnitude
      ⟨Phase.num, neg, false, true, got_dot, got_e, last_exp, n, 0, eneg, exp, false⟩ =
      (n : ℚ) := by
    simp [scan_magnitude]
  simp only [scan_value, if_true, hm, strtod_round_nat neg n h0 h]

theorem invalid_line_abc : invalid_line "abc".toList :=
  ⟨by decide, by decide, by decide⟩

theorem valid_line_3_5 : valid_line "3.5".toList (CDouble.finite (7 / 2)) [] := by
  refine ⟨by decide, ?_⟩
  have hs : scan_item Scan.init "3.5\n".toList =
      (some ⟨Phase.num, false, false, true, true, false, false, 35, 1, false, 0, false⟩,
        "\n".toList) := by decide
  have hm : scan_magnitude
      ⟨Phase.num, false, false, true, true, false, false, 35, 1, false, 0, false⟩ = 7 / 2 := by
    norm_num [scan_magnitude]
  have hr : strtod_round false (7 / 2) = CDouble.finite (7 / 2) := by
    have h := strtod_round_exact false (q := 7 / 2) 1 (7 * 2 ^ 50) (by norm_num) (by norm_num)
      (by norm_num) (by norm_num) (by norm_num [zpow_neg])
    simpa using h
  exact scanf_lf_stores (by decide) hs
    (by simp only [scan_value, if_true, hm, hr])

theorem valid_line_42 : valid_line "42".toList (CDouble.finite 42) [] := by
  refine ⟨by decide, ?_⟩
  have hs : scan_item Scan.init "42\n".toList =
      (some ⟨Phase.num, false, false, true, false, false, false, 42, 0, false, 0, false⟩,
        "\n".toList) := by decide
  have hv := scan_value_whole false false false false false 42 0 (by norm_num) (by norm_num)
  exact scanf_lf_stores (by decide) hs (by simpa using hv)

/-- C4, as the claim states it, fails. On the input `"3abc\n5\n"`, whose first line begins
with the token `3abc`, which is not a number, `rsc_input` prints no diagnostic and returns 3,
the number the token begins with; so it does on `"1e\n5\n"`, returning 1. On the input
`"i\n5\n6\n"`, whose first line is the non-numeric token `i` and whose second line is the
number 5, `scanf` fails on `i` and takes the line break with it, the loop that discards the
invalid line discards the line `5`, and `rsc_input` returns 6 after one diagnostic; on
`"i\n5\n"` it never returns. -/
theorem rsc_input_counterexample :
    rsc_input Libc.sample ⟨(1 : Nat), "3abc\n5\n".toList, []⟩ =
      some (CDouble.finite 3, ⟨(1 : Nat), "abc\n5\n".toList, "Input: ".toList⟩) ∧
    rsc_input Libc.sample ⟨(1 : Nat), "1e\n5\n".toList, []⟩ =
      some (CDouble.finite 1, ⟨(1 : Nat), "\n5\n".toList, "Input: ".toList⟩) ∧
    scanf_lf "i\n5\n6\n".toList = ⟨0, none, "5\n6\n".toList⟩ ∧
    scanf_lf "5\n6\n".toList = ⟨1, some (CDouble.finite 5), "\n6\n".toList⟩ ∧
    rsc_input Libc.sample ⟨(1 : Nat), "i\n5\n6\n".toList, []⟩ =
      some (CDouble.finite 6,
        ⟨(1 : Nat), "\n".toList, "Input: Invalid entry, try again.\nInput: ".toList⟩) ∧
    rsc_input Libc.sample ⟨(1 : Nat), "i\n5\n".toList, []⟩ = none := by
  have s3 : scanf_lf "3abc\n5\n".toList = ⟨1, some (CDouble.finite 3), "abc\n5\n".toList⟩ := by
    have hs : scan_item Scan.init "3abc\n5\n".toList =
        (some ⟨Phase.num, false, false, true, false, false, false, 3, 0, false, 0, false⟩,
          "abc\n5\n".toList) := by decide
    have hv := scan_value_whole false false false false false 3 0 (by norm_num) (by norm_num)
    exact scanf_lf_stores (by decide) hs (by simpa using hv)
  have s1 : scanf_lf "1e\n5\n".toList = ⟨1, some (CDouble.finite 1), "\n5\n".toList⟩ := by
    have hs : scan_item Scan.init "1e\n5\n".toList =
        (some ⟨Phase.num, false, false, true, true, true, true, 1, 0, false, 0, false⟩,
          "\n5\n".toList) := by decide
    have hv := scan_value_whole false true true true false 1 0 (by norm_num) (by norm_num)
    exact scanf_lf_stores (by decide) hs (by simpa using hv)
  have si : scanf_lf "i\n5\n6\n".toList = ⟨0, none, "5\n6\n".toList⟩ := by decide
  have s5 : scanf_lf "5\n6\n".toList = ⟨1, some (CDouble.finite 5), "\n6\n".toList⟩ := by
    have hs : scan_item Scan.init "5\n6\n".toList =
        (some ⟨Phase.num, false, false, true, false, false, false, 5, 0, false, 0, false⟩,
          "\n6\n".toList) := by decide
    have hv := scan_value_whole false false false false false 5 0 (by norm_num) (by norm_num)
    exact scanf_lf_stores (by decide) hs (by simpa using hv)
  have s6 : scanf_lf "6\n".toList = ⟨1, some (CDouble.finite 6), "\n".toList⟩ := by
    have hs : scan_item Scan.init "6\n".toList =
        (some ⟨Phase.num, false, false, true, false, false, false, 6, 0, false, 0, false⟩,
          "\n".toList) := by decide
    have hv := scan_value_whole false false false false false 6 0 (by norm_num) (by norm_num)
    exact scanf_lf_stores (by decide) hs (by simpa using hv)
  have si2 : scanf_lf "i\n5\n".toList = ⟨0, none, "5\n".toList⟩ := by decide
  have se : scanf_lf [] = ⟨-1, none, []⟩ := by decide
  refine ⟨?_, ?_, si, s5, ?_, ?_⟩
  · exact rsc_input_loop_return Libc.sample _ _ ⟨(1 : Nat), "3abc\n5\n".toList, []⟩ _ _ s3
  · exact rsc_input_loop_return Libc.sample _ _ ⟨(1 : Nat), "1e\n5\n".toList, []⟩ _ _ s1
  · show rsc_input_loop Libc.sample (6 + 1) _ ⟨(1 : Nat), "i\n5\n6\n".toList, []⟩ = _
    rw [rsc_input_loop_retry Libc.sample 6 _ ⟨(1 : Nat), "i\n5\n6\n".toList, []⟩ "6\n".toList
      (by rw [si]; decide) (by rw [si]; decide)]
    exact rsc_input_loop_return Libc.sample 5 _ _ _ _ s6
  · show rsc_input_loop Libc.sample (4 + 1) _ ⟨(1 : Nat), "i\n5\n".toList, []⟩ = _
    rw [rsc_input_loop_retry Libc.sample 4 _ ⟨(1 : Nat), "i\n5\n".toList, []⟩ []
      (by rw [si2]; decide) (by rw [si2]; decide)]
    exact rsc_input_loop_stuck Libc.sample 3 _ _ (by rw [se]; decide) (by rw [se]; decide)

/-- C4, amended. For every console input made of `k ≥ 0` lines on each of which
`scanf("%lf")` stores nothing and leaves the line break unread, followed by a line at whose
start `scanf("%lf")` reads a number `x`, `rsc_input` returns `x`; it has then printed the
prompt `Input: ` and the diagnostic `Invalid entry, try again.` once for each of the `k`
lines and the prompt once more, and has discarded each of the `k` lines up to and including
its line break: the input left unread is what follows the number on the last line. -/
theorem rsc_input_retries (L : Libc) (w : World L) (ls : List (List Char))
    (last tail more : List Char) (x : CDouble) (hinv : ∀ l ∈ ls, invalid_line l)
    (hval : valid_line last x tail)
    (hin : w.stdin = lines_text ls ++ (last ++ '\n' :: more)) :
    rsc_input L w =
      some (x, { w with
        stdin := tail ++ '\n' :: more,
        stdout := w.stdout ++
          ((List.replicate ls.length
              ("Input: ".toList ++ "Invalid entry, try again.\n".toList)).flatten ++
            "Input: ".toList) }) := by
  apply rsc_input_loop_lines L ls last tail more x hinv hval _ _ w _ hin
  have h := lines_text_length ls
  rw [hin, List.length_append]
  omega

/-- C4, amended, on the inputs `"abc\n3.5\n"` (one diagnostic, returns 3.5) and `"42\n"` (no
diagnostic, returns 42). -/
theorem rsc_input_retries_witness :
    rsc_input Libc.sample ⟨(1 : Nat), "abc\n3.5\n".toList, []⟩ =
      some (CDouble.finite (7 / 2),
        ⟨(1 : Nat), "\n".toList, "Input: Invalid entry, try again.\nInput: ".toList⟩) ∧
    rsc_input Libc.sample ⟨(1 : Nat), "42\n".toList, []⟩ =
      some (CDouble.finite 42, ⟨(1 : Nat), "\n".toList, "Input: ".toList⟩) :=
  ⟨rsc_input_retries Libc.sample ⟨(1 : Nat), "abc\n3.5\n".toList, []⟩
      ["abc".toList] "3.5".toList [] [] (CDouble.finite (7 / 2))
      (by
        intro l hl
        rw [List.mem_singleton] at hl
        rw [hl]
        exact invalid_line_abc)
      valid_line_3_5 (by decide),
    rsc_input_retries Libc.sample ⟨(1 : Nat), "42\n".toList, []⟩
      [] "42".toList [] [] (CDouble.finite 42) (by intro l hl; simp at hl)
      valid_line_42 (by decide)⟩

end Rsc
